import Mathlib

/-!
Verification of the commission-automation engine.

This file gives a shallow embedding of the allocation, debt-ledger,
reconciliation, P&L-aggregation and name-matching logic of the repository
(src/services/salesRepService.js, copywritingService.js, pnlService.js,
setterCallerService.js, airtableService.js, facebookAdsService.js and the
orchestrator in src/index.js) and proves or refutes the frozen claims
about it.

Modelling conventions:
- JavaScript numbers (Airtable amounts) are modelled as exact rationals.
- The record store (Airtable) is a list of records plus a fresh-id counter;
  the asynchronous adapter calls are modelled by their returned values,
  with an explicit error flag where a claim is about the catch branch.
- Math.round(x * 100) / 100 is floor(x * 100 + 1/2) / 100, which agrees
  with JavaScript Math.round (round half toward positive infinity) on all
  real inputs.
-/

/-- Round to 2 decimal places, mirroring Math.round(x * 100) / 100 in
salesRepService.js line 376 and setterCallerService.js line 161. -/
def round2 (x : ℚ) : ℚ := ((Int.floor (x * 100 + 1/2) : ℤ) : ℚ) / 100

/-- Fields written to a Cheltuieli (expense) record, mirroring the
expenseFields object of salesRepService.js lines 392-403. -/
structure ExpenseFields where
  description : String
  project : String
  category : String
  amount : ℚ
  vatIncluded : String
  month : String
  year : Nat
  source : String
  expenseId : String
  associatedSales : List String
deriving DecidableEq, Repr

/-- An expense record in the store: Airtable record id plus fields. -/
structure ExpenseRecord where
  rid : Nat
  fields : ExpenseFields
deriving DecidableEq, Repr

/-- The expense table: records in creation order plus a fresh-id counter. -/
structure Store where
  recs : List ExpenseRecord
  next : Nat
deriving DecidableEq, Repr

/-- First record whose ID field equals the given expense id, mirroring the
filterByFormula + maxRecords 1 query of getExpenseByExpenseId
(airtableService.js lines 722-751). -/
def findByKey (eid : String) : List ExpenseRecord → Option ExpenseRecord
  | [] => none
  | r :: rest => if r.fields.expenseId = eid then some r else findByKey eid rest

/-- Create appends a record with a fresh record id (airtableService.js
createExpense, line 623). -/
def createRec (flds : ExpenseFields) (S : Store) : Store :=
  ⟨S.recs ++ [⟨S.next, flds⟩], S.next + 1⟩

/-- Update replaces the fields of the record with the given record id
(airtableService.js updateExpense, lines 772-777). -/
def updateRec (rid : Nat) (flds : ExpenseFields) (S : Store) : Store :=
  ⟨S.recs.map (fun r => if r.rid = rid then ⟨r.rid, flds⟩ else r), S.next⟩

/-- Well-formedness of the store: record ids are distinct and below the
fresh-id counter (an invariant of the Airtable backend). -/
def Store.WF (S : Store) : Prop :=
  (S.recs.map (·.rid)).Nodup ∧ ∀ r ∈ S.recs, r.rid < S.next

instance (S : Store) : Decidable S.WF := by
  unfold Store.WF; infer_instance

/-- Number of records carrying a given expense id. -/
def countKey (eid : String) (S : Store) : Nat :=
  (S.recs.filter (fun r => r.fields.expenseId = eid)).length

/-- At most one derived expense per natural key. -/
def AtMostOnePerKey (S : Store) : Prop := ∀ k, countKey k S ≤ 1

-- Basic lemmas about the store operations.

theorem findByKey_mem {eid : String} {l : List ExpenseRecord} {r : ExpenseRecord}
    (h : findByKey eid l = some r) : r ∈ l := by
  induction l with
  | nil => simp [findByKey] at h
  | cons a rest ih =>
    by_cases ha : a.fields.expenseId = eid
    · simp [findByKey, ha] at h; simp [← h]
    · simp [findByKey, ha] at h
      exact List.mem_cons_of_mem _ (ih h)

theorem findByKey_key {eid : String} {l : List ExpenseRecord} {r : ExpenseRecord}
    (h : findByKey eid l = some r) : r.fields.expenseId = eid := by
  induction l with
  | nil => simp [findByKey] at h
  | cons a rest ih =>
    by_cases ha : a.fields.expenseId = eid
    · simp [findByKey, ha] at h; rw [← h]; exact ha
    · simp [findByKey, ha] at h; exact ih h

theorem findByKey_append (eid : String) (l₁ l₂ : List ExpenseRecord) :
    findByKey eid (l₁ ++ l₂) =
      (findByKey eid l₁).elim (findByKey eid l₂) some := by
  induction l₁ with
  | nil => simp [findByKey]
  | cons a rest ih =>
    by_cases ha : a.fields.expenseId = eid
    · simp [findByKey, ha]
    · simp [findByKey, ha, ih]

theorem countKey_append (eid : String) (S : Store) (r : ExpenseRecord) :
    countKey eid ⟨S.recs ++ [r], S.next + 1⟩ =
      countKey eid S + (if r.fields.expenseId = eid then 1 else 0) := by
  unfold countKey
  simp [List.filter_append]
  by_cases h : r.fields.expenseId = eid <;> simp [h]

/-!
Sales-rep commission pipeline (src/services/salesRepService.js).
-/

/-- A sale row as read by getSalesByIds: Airtable id, project and the sale
amount (Suma Totală); a missing amount is modelled as 0, matching
`sale.totalAmount || 0` (salesRepService.js line 299). -/
structure Sale where
  id : String
  project : String
  totalAmount : ℚ
deriving DecidableEq, Repr

/-- A debt row returned by getRepresentativeDebts: prior-period monthly
commission record with (negative) final commission amount. -/
structure Debt where
  id : String
  month : String
  amount : ℚ
deriving DecidableEq, Repr

/-- A monthly commission record as consumed by processSalesRepCommission
(salesRepService.js line 198). saleIds is the linked Vânzări id list,
representative the linked Reprezentant id list. -/
structure Commission where
  id : String
  finalCommission : ℚ
  saleIds : List String
  name : String
  representativeName : Option String
  representative : List String
deriving DecidableEq, Repr

/-- Whitespace trim on the character list, mirroring the JavaScript
String.prototype.trim used by validators.js (structural recursion so that
concrete inputs evaluate in proofs). -/
def trimChars (l : List Char) : List Char :=
  ((l.dropWhile (·.isWhitespace)).reverse.dropWhile (·.isWhitespace)).reverse

/-- Mirrors validators.js isValidProject: a non-empty string after trim. -/
def isValidProject (project : String) : Bool :=
  decide (0 < (trimChars project.data).length)

/-- Mirrors validators.js isValidExpenseAmount on rational amounts: the
number checks (typeof, isNaN, isFinite) are vacuous in the model. -/
def isValidExpenseAmount (amount : ℚ) : Bool := decide (0 < amount)

/-- Per-project accumulator of the grouping loop
(salesRepService.js lines 322-333). -/
structure SRGroup where
  totalAmount : ℚ
  salesCount : Nat
  saleIds : List String
deriving DecidableEq, Repr

/-- Add one sale to the ordered project-group association list; a new
project is appended, an existing one accumulated in place, matching the
plain-object insertion-order semantics of the source. -/
def addSaleToGroups (p : String) (s : Sale) :
    List (String × SRGroup) → List (String × SRGroup)
  | [] => [(p, ⟨s.totalAmount, 1, [s.id]⟩)]
  | (q, g) :: rest =>
    if q = p then
      (q, ⟨g.totalAmount + s.totalAmount, g.salesCount + 1, g.saleIds ++ [s.id]⟩) :: rest
    else
      (q, g) :: addSaleToGroups p s rest

/-- Grouping loop of salesRepService.js lines 297-334: sales with a missing
or invalid project or a non-positive amount are skipped. -/
def buildProjectGroupsAux (gs : List (String × SRGroup)) :
    List Sale → List (String × SRGroup)
  | [] => gs
  | s :: rest =>
    if isValidProject s.project && decide (0 < s.totalAmount) then
      buildProjectGroupsAux (addSaleToGroups s.project s gs) rest
    else
      buildProjectGroupsAux gs rest

/-- Project groups built from the fetched sales of one commission. -/
def buildProjectGroups (sales : List Sale) : List (String × SRGroup) :=
  buildProjectGroupsAux [] sales

/-- The running totalSalesAmount of the same loop
(salesRepService.js line 333). -/
def totalSalesAmountOf : List Sale → ℚ
  | [] => 0
  | s :: rest =>
    (if isValidProject s.project && decide (0 < s.totalAmount) then s.totalAmount else 0)
      + totalSalesAmountOf rest

/-- Net commission after debt deduction (salesRepService.js lines 218-243):
when the representative link is present and debts were returned, the
absolute value of the summed (negative) debts is subtracted from the final
commission; otherwise the final commission is used unchanged. -/
def netCommissionOf (c : Commission) (debts : List Debt) : ℚ :=
  if c.representative ≠ [] ∧ debts ≠ [] then
    c.finalCommission - |(debts.map (·.amount)).sum|
  else
    c.finalCommission

/-- Deterministic natural key of a sales-rep expense
(salesRepService.js line 379). -/
def expenseKey (commissionId project : String) : String :=
  "commission_" ++ commissionId ++ "_" ++ project

/-- The expense fields written for one project group
(salesRepService.js lines 386-403). -/
def mkExpenseFields (c : Commission) (project : String) (g : SRGroup)
    (rounded : ℚ) (month : String) (year : Nat) : ExpenseFields :=
  { description := (c.representativeName.getD ((c.name.splitOn " - ").headD "")) ++ " - " ++ month
    project := project
    category := "Reprezentanți"
    amount := rounded
    vatIncluded := "Nu"
    month := month
    year := year
    source := "Automat"
    expenseId := expenseKey c.id project
    associatedSales := g.saleIds }

/-- Mirrors airtableService.js getExpenseByExpenseId (lines 722-759): the
catch branch returns null, so a failed lookup is indistinguishable from a
missing record. The err flag selects the catch branch. -/
def getExpenseByExpenseId (err : Bool) (eid : String) (S : Store) :
    Option ExpenseRecord :=
  if err then none else findByKey eid S.recs

/-- Mirrors airtableService.js expenseExists (lines 578-607): the catch
branch returns true, assuming the record exists to prevent duplicates. -/
def expenseExists (err : Bool) (eid : String) (S : Store) : Bool :=
  if err then true else (findByKey eid S.recs).isSome

/-- Counters returned by one processing run
(created, updated, skipped, errors). -/
structure RunCounts where
  created : Nat
  updated : Nat
  skipped : Nat
  errors : Nat
deriving DecidableEq, Repr

/-- Per-project write loop of salesRepService.js lines 360-451: compute the
proportional share, round it, look the natural key up, then update the
found record or create a new one. lerr says which keys the lookup fails
for (the adapter catch branch returning null). -/
def writeGroups (lerr : String → Bool) (c : Commission) (net W : ℚ)
    (month : String) (year : Nat) (S : Store) :
    List (String × SRGroup) → Store × RunCounts
  | [] => (S, ⟨0, 0, 0, 0⟩)
  | (p, g) :: rest =>
    let pct : ℚ := if 0 < W then g.totalAmount / W else 0
    let rounded := round2 (net * pct)
    let eid := expenseKey c.id p
    let flds := mkExpenseFields c p g rounded month year
    match getExpenseByExpenseId (lerr eid) eid S with
    | some r =>
      let step := writeGroups lerr c net W month year (updateRec r.rid flds S) rest
      (step.1, ⟨step.2.created, step.2.updated + 1, step.2.skipped, step.2.errors⟩)
    | none =>
      let step := writeGroups lerr c net W month year (createRec flds S) rest
      (step.1, ⟨step.2.created + 1, step.2.updated, step.2.skipped, step.2.errors⟩)

/-- One commission processed against the store, mirroring
processSalesRepCommission (salesRepService.js lines 197-454); debts and
sales stand for the awaited getRepresentativeDebts and getSalesByIds
results. Write failures are not modelled (happy path). -/
def processSalesRepCommission (lerr : String → Bool) (c : Commission)
    (debts : List Debt) (sales : List Sale) (month : String) (year : Nat)
    (S : Store) : Store × RunCounts :=
  if ¬ (isValidExpenseAmount c.finalCommission) then (S, ⟨0, 0, 1, 0⟩)
  else if c.representative ≠ [] ∧ debts ≠ [] ∧ netCommissionOf c debts ≤ 0 then
    (S, ⟨0, 0, 1, 0⟩)
  else if c.saleIds = [] then (S, ⟨0, 0, 1, 0⟩)
  else if sales = [] then (S, ⟨0, 0, 1, 0⟩)
  else if buildProjectGroups sales = [] then (S, ⟨0, 0, 1, 0⟩)
  else
    writeGroups lerr c (netCommissionOf c debts) (totalSalesAmountOf sales)
      month year S (buildProjectGroups sales)

/-- A commission job for a month run: the commission, the awaited collab
results, and whether its processing throws (the per-commission try/catch
of salesRepService.js lines 137-163). -/
structure Job where
  c : Commission
  debts : List Debt
  sales : List Sale
  fails : Bool
deriving Repr

/-- Month loop of processSalesRepCommissionsForMonth (salesRepService.js
lines 135-164): a throwing commission is counted as an error and the loop
continues with the remaining commissions. -/
def runMonth (lerr : String → Bool) (month : String) (year : Nat) :
    List Job → Store → Store × RunCounts
  | [], S => (S, ⟨0, 0, 0, 0⟩)
  | j :: rest, S =>
    if j.fails then
      let step := runMonth lerr month year rest S
      (step.1, ⟨step.2.created, step.2.updated, step.2.skipped, step.2.errors + 1⟩)
    else
      let one := processSalesRepCommission lerr j.c j.debts j.sales month year S
      let step := runMonth lerr month year rest one.1
      (step.1, ⟨step.2.created + one.2.created, step.2.updated + one.2.updated,
        step.2.skipped + one.2.skipped, step.2.errors + one.2.errors⟩)

/-- Natural keys a commission job can write (keys of its project groups). -/
def writtenKeys (j : Job) : List String :=
  (buildProjectGroups j.sales).map (fun pg => expenseKey j.c.id pg.1)

/-!
Store-level lemmas used by the reconciliation proofs.
-/

/-- A lookup that returns none means no record carries the key. -/
theorem countKey_eq_zero_of_findByKey_none {eid : String} {l : List ExpenseRecord}
    (h : findByKey eid l = none) :
    (l.filter (fun r => r.fields.expenseId = eid)).length = 0 := by
  induction l with
  | nil => simp
  | cons a rest ih =>
    by_cases ha : a.fields.expenseId = eid
    · simp [findByKey, ha] at h
    · simp [findByKey, ha] at h
      simp [List.filter_cons, ha, ih h]

theorem map_update_of_not_mem {rid : Nat} {flds : ExpenseFields}
    {l : List ExpenseRecord} (h : ∀ x ∈ l, x.rid ≠ rid) :
    l.map (fun r => if r.rid = rid then ⟨r.rid, flds⟩ else r) = l := by
  induction l with
  | nil => simp
  | cons a rest ih =>
    have ha := h a (List.mem_cons_self a rest)
    simp [ha, ih (fun x hx => h x (List.mem_cons_of_mem _ hx))]

theorem rid_ne_of_nodup_head {a r : ExpenseRecord} {rest : List ExpenseRecord}
    (hnd : ((a :: rest).map (·.rid)).Nodup) (hr : r ∈ rest) : a.rid ≠ r.rid := by
  simp [List.nodup_cons] at hnd
  intro h
  exact hnd.1 r hr h.symm

/-- Updating the record found under a key, with fields keeping that key,
re-finds the updated record under the same key. -/
theorem findByKey_update_found {eid : String} {l : List ExpenseRecord}
    {r : ExpenseRecord} {flds : ExpenseFields}
    (hnd : (l.map (·.rid)).Nodup) (hf : findByKey eid l = some r)
    (hk : flds.expenseId = eid) :
    findByKey eid (l.map (fun x => if x.rid = r.rid then ⟨x.rid, flds⟩ else x))
      = some ⟨r.rid, flds⟩ := by
  induction l with
  | nil => simp [findByKey] at hf
  | cons a rest ih =>
    by_cases ha : a.fields.expenseId = eid
    · simp [findByKey, ha] at hf
      subst hf
      simp [findByKey, hk]
    · simp [findByKey, ha] at hf
      have hne : a.rid ≠ r.rid := rid_ne_of_nodup_head hnd (findByKey_mem hf)
      have hnd' : (rest.map (·.rid)).Nodup := by
        simp [List.nodup_cons] at hnd; exact hnd.2
      simp [findByKey, hne, ha, ih hnd' hf]

/-- Updating the record found under one key does not change lookups of any
other key. -/
theorem findByKey_update_frame {k eid : String} {l : List ExpenseRecord}
    {r : ExpenseRecord} {flds : ExpenseFields}
    (hnd : (l.map (·.rid)).Nodup) (hf : findByKey eid l = some r)
    (hk : flds.expenseId = eid) (hne : k ≠ eid) :
    findByKey k (l.map (fun x => if x.rid = r.rid then ⟨x.rid, flds⟩ else x))
      = findByKey k l := by
  induction l with
  | nil => simp
  | cons a rest ih =>
    have hnd' : (rest.map (·.rid)).Nodup := by
      simp [List.nodup_cons] at hnd; exact hnd.2
    by_cases ha : a.fields.expenseId = eid
    · simp [findByKey, ha] at hf
      subst hf
      have htail : rest.map (fun x => if x.rid = a.rid then ⟨x.rid, flds⟩ else x) = rest := by
        apply map_update_of_not_mem
        intro x hx h
        simp [List.nodup_cons] at hnd
        exact hnd.1 x hx h
      have hkk : ¬ (flds.expenseId = k) := by rw [hk]; exact fun h => hne h.symm
      have hak : ¬ (a.fields.expenseId = k) := by rw [ha]; exact fun h => hne h.symm
      simp [findByKey, htail, hkk, hak]
    · simp [findByKey, ha] at hf
      have hner : a.rid ≠ r.rid := rid_ne_of_nodup_head hnd (findByKey_mem hf)
      by_cases hak : a.fields.expenseId = k
      · simp [findByKey, hner, hak]
      · simp [findByKey, hner, hak, ih hnd' hf]

/-- Updating the found record with fields keeping its key leaves every
per-key record count unchanged. -/
theorem countKey_update {k eid : String} {l : List ExpenseRecord}
    {r : ExpenseRecord} {flds : ExpenseFields}
    (hnd : (l.map (·.rid)).Nodup) (hf : findByKey eid l = some r)
    (hk : flds.expenseId = eid) :
    ((l.map (fun x => if x.rid = r.rid then ⟨x.rid, flds⟩ else x)).filter
        (fun x => x.fields.expenseId = k)).length
      = (l.filter (fun x => x.fields.expenseId = k)).length := by
  induction l with
  | nil => simp
  | cons a rest ih =>
    have hnd' : (rest.map (·.rid)).Nodup := by
      simp [List.nodup_cons] at hnd; exact hnd.2
    by_cases ha : a.fields.expenseId = eid
    · simp [findByKey, ha] at hf
      subst hf
      have htail : rest.map (fun x => if x.rid = a.rid then ⟨x.rid, flds⟩ else x) = rest := by
        apply map_update_of_not_mem
        intro x hx h
        simp [List.nodup_cons] at hnd
        exact hnd.1 x hx h
      by_cases hak : k = eid
      · subst hak
        simp [List.filter_cons, htail, hk, ha]
      · have h1 : ¬ (a.fields.expenseId = k) := by rw [ha]; exact fun h => hak h.symm
        have h2 : ¬ (flds.expenseId = k) := by rw [hk]; exact fun h => hak h.symm
        simp [List.filter_cons, htail, h1, h2]
    · simp [findByKey, ha] at hf
      have hner : a.rid ≠ r.rid := rid_ne_of_nodup_head hnd (findByKey_mem hf)
      by_cases hak : a.fields.expenseId = k <;>
        simp [List.filter_cons, hner, hak, ih hnd' hf]

/-- Updating a record already holding the target fields is a no-op. -/
theorem map_update_self {l : List ExpenseRecord} {n : Nat} {flds : ExpenseFields}
    (hnd : (l.map (·.rid)).Nodup) (hm : (⟨n, flds⟩ : ExpenseRecord) ∈ l) :
    l.map (fun x => if x.rid = n then ⟨x.rid, flds⟩ else x) = l := by
  induction l with
  | nil => simp
  | cons a rest ih =>
    have hnd' : (rest.map (·.rid)).Nodup := by
      simp [List.nodup_cons] at hnd; exact hnd.2
    rcases List.mem_cons.mp hm with h | h
    · have ha : a = (⟨n, flds⟩ : ExpenseRecord) := h.symm
      subst ha
      have htail : rest.map (fun x => if x.rid = n then ⟨x.rid, flds⟩ else x) = rest := by
        apply map_update_of_not_mem
        intro x hx hxr
        simp [List.nodup_cons] at hnd
        exact hnd.1 x hx hxr
      simp [htail]
    · have hne : a.rid ≠ n := by
        have := rid_ne_of_nodup_head hnd h
        simpa using this
      simp [hne, ih hnd' h]

theorem wf_updateRec {S : Store} (rid : Nat) (flds : ExpenseFields)
    (h : S.WF) : (updateRec rid flds S).WF := by
  obtain ⟨hnd, hlt⟩ := h
  constructor
  · have : ((updateRec rid flds S).recs.map (·.rid)) = S.recs.map (·.rid) := by
      simp only [updateRec, List.map_map]
      apply List.map_congr_left
      intro x _
      by_cases hx : x.rid = rid <;> simp [hx]
    rw [this]; exact hnd
  · intro r hr
    simp only [updateRec, List.mem_map] at hr
    obtain ⟨x, hx, hfx⟩ := hr
    by_cases hxr : x.rid = rid
    · simp [hxr] at hfx
      rw [← hfx]
      simpa [hxr] using hlt x hx
    · simp [hxr] at hfx
      rw [← hfx]
      exact hlt x hx

theorem wf_createRec {S : Store} (flds : ExpenseFields)
    (h : S.WF) : (createRec flds S).WF := by
  obtain ⟨hnd, hlt⟩ := h
  constructor
  · simp only [createRec, List.map_append, List.map_cons, List.map_nil]
    rw [List.nodup_append]
    refine ⟨hnd, List.nodup_singleton _, ?_⟩
    intro x hx
    simp only [List.mem_map] at hx
    obtain ⟨r, hr, hrx⟩ := hx
    have := hlt r hr
    simp only [List.mem_singleton]
    omega
  · intro r hr
    simp only [createRec, List.mem_append, List.mem_singleton] at hr
    rcases hr with hr | hr
    · have := hlt r hr; simp [createRec]; omega
    · simp [createRec, hr]

/-!
Lemmas about the project-grouping loop.
-/

/-- Sum of the group weights (per-project sale-amount totals). -/
def sumWeights (gs : List (String × SRGroup)) : ℚ :=
  (gs.map (·.2.totalAmount)).sum

theorem addSaleToGroups_keys (p : String) (s : Sale)
    (gs : List (String × SRGroup)) :
    (addSaleToGroups p s gs).map Prod.fst =
      if p ∈ gs.map Prod.fst then gs.map Prod.fst else gs.map Prod.fst ++ [p] := by
  induction gs with
  | nil => simp [addSaleToGroups]
  | cons a rest ih =>
    obtain ⟨q, g⟩ := a
    by_cases hq : q = p
    · subst hq
      simp [addSaleToGroups]
    · simp only [addSaleToGroups, if_neg hq, List.map_cons, ih]
      by_cases hp : p ∈ rest.map Prod.fst
      · simp [hp, Ne.symm hq]
      · simp [hp, Ne.symm hq]

theorem addSaleToGroups_sumWeights (p : String) (s : Sale)
    (gs : List (String × SRGroup)) :
    sumWeights (addSaleToGroups p s gs) = sumWeights gs + s.totalAmount := by
  induction gs with
  | nil => simp [addSaleToGroups, sumWeights]
  | cons a rest ih =>
    obtain ⟨q, g⟩ := a
    by_cases hq : q = p
    · subst hq
      simp [addSaleToGroups, sumWeights]
      ring
    · simp only [addSaleToGroups, if_neg hq]
      simp [sumWeights] at ih ⊢
      rw [ih]
      ring

theorem addSaleToGroups_pos (p : String) (s : Sale)
    (gs : List (String × SRGroup)) (hs : 0 < s.totalAmount)
    (hgs : ∀ pg ∈ gs, 0 < pg.2.totalAmount) :
    ∀ pg ∈ addSaleToGroups p s gs, 0 < pg.2.totalAmount := by
  induction gs with
  | nil =>
    intro pg hpg
    simp [addSaleToGroups] at hpg
    simp [hpg, hs]
  | cons a rest ih =>
    obtain ⟨q, g⟩ := a
    intro pg hpg
    by_cases hq : q = p
    · subst hq
      simp [addSaleToGroups] at hpg
      rcases hpg with h | h
      · have hg := hgs (q, g) (List.mem_cons_self _ _)
        simp [h]
        have : (0:ℚ) < g.totalAmount := hg
        linarith
      · exact hgs pg (List.mem_cons_of_mem _ h)
    · simp only [addSaleToGroups, if_neg hq] at hpg
      rcases List.mem_cons.mp hpg with h | h
      · subst h
        exact hgs (q, g) (List.mem_cons_self _ _)
      · exact ih (fun x hx => hgs x (List.mem_cons_of_mem _ hx)) pg h

theorem buildProjectGroupsAux_keys_nodup (sales : List Sale)
    (gs : List (String × SRGroup)) (h : (gs.map Prod.fst).Nodup) :
    ((buildProjectGroupsAux gs sales).map Prod.fst).Nodup := by
  induction sales generalizing gs with
  | nil => simpa [buildProjectGroupsAux]
  | cons s rest ih =>
    by_cases hc : (isValidProject s.project && decide (0 < s.totalAmount)) = true
    · simp only [buildProjectGroupsAux, hc, if_true]
      apply ih
      rw [addSaleToGroups_keys]
      by_cases hp : s.project ∈ gs.map Prod.fst
      · simpa [hp]
      · simp only [hp, if_false]
        simp [List.nodup_append, h, hp]
    · simp only [buildProjectGroupsAux, hc, if_false]
      exact ih gs h

theorem buildProjectGroups_keys_nodup (sales : List Sale) :
    ((buildProjectGroups sales).map Prod.fst).Nodup :=
  buildProjectGroupsAux_keys_nodup sales [] (by simp)

theorem buildProjectGroupsAux_pos (sales : List Sale)
    (gs : List (String × SRGroup)) (h : ∀ pg ∈ gs, 0 < pg.2.totalAmount) :
    ∀ pg ∈ buildProjectGroupsAux gs sales, 0 < pg.2.totalAmount := by
  induction sales generalizing gs with
  | nil => simpa [buildProjectGroupsAux] using h
  | cons s rest ih =>
    by_cases hc : (isValidProject s.project && decide (0 < s.totalAmount)) = true
    · simp only [buildProjectGroupsAux, hc, if_true]
      have hs : 0 < s.totalAmount := by
        simp [Bool.and_eq_true] at hc
        exact hc.2
      exact ih _ (addSaleToGroups_pos s.project s gs hs h)
    · simp only [buildProjectGroupsAux, hc, if_false]
      exact ih gs h

theorem buildProjectGroups_pos (sales : List Sale) :
    ∀ pg ∈ buildProjectGroups sales, 0 < pg.2.totalAmount :=
  buildProjectGroupsAux_pos sales [] (by simp)

theorem buildProjectGroupsAux_sumWeights (sales : List Sale)
    (gs : List (String × SRGroup)) :
    sumWeights (buildProjectGroupsAux gs sales)
      = sumWeights gs + totalSalesAmountOf sales := by
  induction sales generalizing gs with
  | nil => simp [buildProjectGroupsAux, totalSalesAmountOf]
  | cons s rest ih =>
    by_cases hc : (isValidProject s.project && decide (0 < s.totalAmount)) = true
    · simp only [buildProjectGroupsAux, totalSalesAmountOf]
      rw [if_pos hc, if_pos hc, ih, addSaleToGroups_sumWeights]
      ring
    · simp only [buildProjectGroupsAux, totalSalesAmountOf]
      rw [if_neg hc, if_neg hc, ih]
      ring

theorem buildProjectGroups_sumWeights (sales : List Sale) :
    sumWeights (buildProjectGroups sales) = totalSalesAmountOf sales := by
  have := buildProjectGroupsAux_sumWeights sales []
  simpa [buildProjectGroups, sumWeights] using this

/-- When the grouping produced at least one project group, the total sale
amount is positive (no division by zero in the allocation). -/
theorem totalSalesAmount_pos_of_groups_ne_nil {sales : List Sale}
    (h : buildProjectGroups sales ≠ []) : 0 < totalSalesAmountOf sales := by
  have hsum := buildProjectGroups_sumWeights sales
  cases hgs : buildProjectGroups sales with
  | nil => exact absurd hgs h
  | cons pg rest =>
    rw [hgs] at hsum
    rw [← hsum]
    have hall := buildProjectGroups_pos sales
    rw [hgs] at hall
    have hhead : 0 < pg.2.totalAmount := hall pg (List.mem_cons_self _ _)
    have hrest : 0 ≤ (rest.map (·.2.totalAmount)).sum := by
      apply List.sum_nonneg
      intro x hx
      obtain ⟨a, ha, hax⟩ := List.mem_map.mp hx
      have := hall a (List.mem_cons_of_mem _ ha)
      rw [← hax]
      exact this.le
    have hexp : sumWeights (pg :: rest)
        = pg.2.totalAmount + (rest.map (·.2.totalAmount)).sum := by
      simp [sumWeights]
    rw [hexp]
    linarith

theorem string_append_cancel_left {s t u : String} (h : s ++ t = s ++ u) : t = u := by
  have hd : (s ++ t).data = (s ++ u).data := congrArg String.data h
  simp only [String.data_append] at hd
  have hdata := List.append_cancel_left hd
  cases t; cases u
  exact congrArg String.mk hdata

/-- The per-project expense key is injective in the project for a fixed
commission id. -/
theorem expenseKey_inj_proj {cid p q : String}
    (h : expenseKey cid p = expenseKey cid q) : p = q := by
  unfold expenseKey at h
  exact string_append_cancel_left h

/-!
Lemmas about the per-project write loop (lookup before every write).
-/

/-- Normal operation: no lookup errors. -/
def noErr : String → Bool := fun _ => false

/-- The fields the write loop computes for one project group. -/
def groupFields (c : Commission) (net W : ℚ) (month : String) (year : Nat)
    (pg : String × SRGroup) : ExpenseFields :=
  mkExpenseFields c pg.1 pg.2
    (round2 (net * (if 0 < W then pg.2.totalAmount / W else 0))) month year

/-- Natural keys of a group list for a given commission. -/
def groupKeys (c : Commission) (gs : List (String × SRGroup)) : List String :=
  gs.map (fun pg => expenseKey c.id pg.1)

theorem groupFields_expenseId (c : Commission) (net W : ℚ) (month : String)
    (year : Nat) (pg : String × SRGroup) :
    (groupFields c net W month year pg).expenseId = expenseKey c.id pg.1 := rfl

theorem writeGroups_cons (lerr : String → Bool) (c : Commission) (net W : ℚ)
    (month : String) (year : Nat) (S : Store) (p : String) (g : SRGroup)
    (rest : List (String × SRGroup)) :
    writeGroups lerr c net W month year S ((p, g) :: rest) =
      match getExpenseByExpenseId (lerr (expenseKey c.id p)) (expenseKey c.id p) S with
      | some r =>
        let step := writeGroups lerr c net W month year
          (updateRec r.rid (groupFields c net W month year (p, g)) S) rest
        (step.1, ⟨step.2.created, step.2.updated + 1, step.2.skipped, step.2.errors⟩)
      | none =>
        let step := writeGroups lerr c net W month year
          (createRec (groupFields c net W month year (p, g)) S) rest
        (step.1, ⟨step.2.created + 1, step.2.updated, step.2.skipped, step.2.errors⟩) := rfl

theorem getExpenseByExpenseId_noErr (eid : String) (S : Store) :
    getExpenseByExpenseId (noErr eid) eid S = findByKey eid S.recs := rfl

theorem findByKey_createRec (k : String) (flds : ExpenseFields) (S : Store) :
    findByKey k (createRec flds S).recs =
      (findByKey k S.recs).elim
        (if flds.expenseId = k then some ⟨S.next, flds⟩ else none) some := by
  simp only [createRec, findByKey_append]
  by_cases h : flds.expenseId = k <;> simp [findByKey, h]

theorem writeGroups_wf (c : Commission) (net W : ℚ) (month : String)
    (year : Nat) (gs : List (String × SRGroup)) (S : Store) (hwf : S.WF) :
    (writeGroups noErr c net W month year S gs).1.WF := by
  induction gs generalizing S with
  | nil => simpa [writeGroups]
  | cons pg rest ih =>
    obtain ⟨p, g⟩ := pg
    rw [writeGroups_cons]
    rw [getExpenseByExpenseId_noErr]
    cases hfind : findByKey (expenseKey c.id p) S.recs with
    | some r =>
      simpa using ih _ (wf_updateRec _ _ hwf)
    | none =>
      simpa using ih _ (wf_createRec _ hwf)

theorem writeGroups_frame (c : Commission) (net W : ℚ) (month : String)
    (year : Nat) (gs : List (String × SRGroup)) (S : Store) (k : String)
    (hwf : S.WF) (hk : k ∉ groupKeys c gs) :
    findByKey k (writeGroups noErr c net W month year S gs).1.recs
      = findByKey k S.recs := by
  induction gs generalizing S with
  | nil => simp [writeGroups]
  | cons pg rest ih =>
    obtain ⟨p, g⟩ := pg
    have hkp : k ≠ expenseKey c.id p := by
      intro h
      exact hk (by simp [groupKeys, h])
    have hkrest : k ∉ groupKeys c rest := by
      intro h
      apply hk
      simp [groupKeys] at h ⊢
      exact Or.inr h
    rw [writeGroups_cons, getExpenseByExpenseId_noErr]
    cases hfind : findByKey (expenseKey c.id p) S.recs with
    | some r =>
      simp only []
      rw [ih _ (wf_updateRec _ _ hwf) hkrest]
      exact findByKey_update_frame hwf.1 hfind (groupFields_expenseId _ _ _ _ _ _) hkp
    | none =>
      simp only []
      rw [ih _ (wf_createRec _ hwf) hkrest]
      rw [findByKey_createRec]
      have : ¬ ((groupFields c net W month year (p, g)).expenseId = k) := by
        rw [groupFields_expenseId]
        exact fun h => hkp h.symm
      cases hfk : findByKey k S.recs <;> simp [this, hfk]

theorem writeGroups_post (c : Commission) (net W : ℚ) (month : String)
    (year : Nat) (gs : List (String × SRGroup)) (S : Store)
    (hwf : S.WF) (hnd : (groupKeys c gs).Nodup) :
    ∀ pg ∈ gs, ∃ n,
      findByKey (expenseKey c.id pg.1)
          (writeGroups noErr c net W month year S gs).1.recs
        = some ⟨n, groupFields c net W month year pg⟩ := by
  induction gs generalizing S with
  | nil => simp
  | cons hd rest ih =>
    obtain ⟨p, g⟩ := hd
    rw [show groupKeys c ((p, g) :: rest) = expenseKey c.id p :: groupKeys c rest
      from rfl] at hnd
    have hheadkey : expenseKey c.id p ∉ groupKeys c rest := (List.nodup_cons.mp hnd).1
    have hndrest : (groupKeys c rest).Nodup := (List.nodup_cons.mp hnd).2
    intro pg hpg
    rw [writeGroups_cons, getExpenseByExpenseId_noErr]
    rcases List.mem_cons.mp hpg with hpg1 | hpgrest
    · subst hpg1
      cases hfind : findByKey (expenseKey c.id p) S.recs with
      | some r =>
        simp only []
        refine ⟨r.rid, ?_⟩
        rw [writeGroups_frame _ _ _ _ _ _ _ _ (wf_updateRec _ _ hwf) hheadkey]
        exact findByKey_update_found hwf.1 hfind (groupFields_expenseId _ _ _ _ _ _)
      | none =>
        simp only []
        refine ⟨S.next, ?_⟩
        rw [writeGroups_frame _ _ _ _ _ _ _ _ (wf_createRec _ hwf) hheadkey]
        rw [findByKey_createRec, hfind]
        simp [groupFields_expenseId]
    · cases hfind : findByKey (expenseKey c.id p) S.recs with
      | some r =>
        simp only []
        exact ih _ (wf_updateRec _ _ hwf) hndrest pg hpgrest
      | none =>
        simp only []
        exact ih _ (wf_createRec _ hwf) hndrest pg hpgrest

theorem writeGroups_noop (c : Commission) (net W : ℚ) (month : String)
    (year : Nat) (gs : List (String × SRGroup)) (S : Store)
    (hwf : S.WF)
    (hpre : ∀ pg ∈ gs, ∃ n,
      findByKey (expenseKey c.id pg.1) S.recs
        = some ⟨n, groupFields c net W month year pg⟩) :
    writeGroups noErr c net W month year S gs = (S, ⟨0, gs.length, 0, 0⟩) := by
  induction gs with
  | nil => simp [writeGroups]
  | cons hd rest ih =>
    obtain ⟨p, g⟩ := hd
    obtain ⟨n, hn⟩ := hpre (p, g) (List.mem_cons_self _ _)
    rw [writeGroups_cons, getExpenseByExpenseId_noErr, hn]
    simp only []
    have hupd : updateRec (ExpenseRecord.mk n (groupFields c net W month year (p, g))).rid
        (groupFields c net W month year (p, g)) S = S := by
      show updateRec n (groupFields c net W month year (p, g)) S = S
      unfold updateRec
      have := map_update_self hwf.1 (findByKey_mem hn)
      rw [this]
    rw [hupd]
    rw [ih (fun pg hpg => hpre pg (List.mem_cons_of_mem _ hpg))]
    simp

theorem writeGroups_atMostOne (c : Commission) (net W : ℚ) (month : String)
    (year : Nat) (gs : List (String × SRGroup)) (S : Store)
    (hwf : S.WF) (hone : AtMostOnePerKey S) :
    AtMostOnePerKey (writeGroups noErr c net W month year S gs).1 := by
  induction gs generalizing S with
  | nil => simpa [writeGroups]
  | cons hd rest ih =>
    obtain ⟨p, g⟩ := hd
    rw [writeGroups_cons, getExpenseByExpenseId_noErr]
    cases hfind : findByKey (expenseKey c.id p) S.recs with
    | some r =>
      simp only []
      apply ih _ (wf_updateRec _ _ hwf)
      intro k
      have := countKey_update (k := k) hwf.1 hfind
        (groupFields_expenseId c net W month year (p, g))
      unfold countKey updateRec
      simp only []
      rw [this]
      exact hone k
    | none =>
      simp only []
      apply ih _ (wf_createRec _ hwf)
      intro k
      have hck : countKey k (createRec (groupFields c net W month year (p, g)) S)
          = countKey k S
            + (if (groupFields c net W month year (p, g)).expenseId = k then 1 else 0) := by
        unfold createRec
        exact countKey_append k S _
      rw [hck]
      by_cases hkp : (groupFields c net W month year (p, g)).expenseId = k
      · have hkp' : expenseKey c.id (p, g).1 = k := by
          rw [← groupFields_expenseId c net W month year (p, g)]
          exact hkp
        have h0 : countKey k S = 0 := by
          unfold countKey
          rw [← hkp']
          exact countKey_eq_zero_of_findByKey_none hfind
        rw [h0, if_pos hkp]
      · rw [if_neg hkp]
        simpa using hone k

/-!
Lemmas lifting the write-loop properties through processSalesRepCommission
and the month loop.
-/

/-- The guards of processSalesRepCommission all pass and the write loop is
reached (none of the validation/debt/empty-sales skips fires). -/
def reachesWrites (c : Commission) (debts : List Debt) (sales : List Sale) : Prop :=
  isValidExpenseAmount c.finalCommission = true ∧
  ¬ (c.representative ≠ [] ∧ debts ≠ [] ∧ netCommissionOf c debts ≤ 0) ∧
  c.saleIds ≠ [] ∧ sales ≠ [] ∧ buildProjectGroups sales ≠ []

instance (c : Commission) (debts : List Debt) (sales : List Sale) :
    Decidable (reachesWrites c debts sales) := by
  unfold reachesWrites; infer_instance

theorem process_eq_writeGroups (lerr : String → Bool) (c : Commission)
    (debts : List Debt) (sales : List Sale) (month : String) (year : Nat)
    (S : Store) (h : reachesWrites c debts sales) :
    processSalesRepCommission lerr c debts sales month year S
      = writeGroups lerr c (netCommissionOf c debts) (totalSalesAmountOf sales)
          month year S (buildProjectGroups sales) := by
  obtain ⟨h1, h2, h3, h4, h5⟩ := h
  unfold processSalesRepCommission
  rw [if_neg (by simp [h1]), if_neg h2, if_neg h3, if_neg h4, if_neg h5]

theorem process_eq_skip (lerr : String → Bool) (c : Commission)
    (debts : List Debt) (sales : List Sale) (month : String) (year : Nat)
    (S : Store) (h : ¬ reachesWrites c debts sales) :
    processSalesRepCommission lerr c debts sales month year S = (S, ⟨0, 0, 1, 0⟩) := by
  unfold processSalesRepCommission
  by_cases h1 : isValidExpenseAmount c.finalCommission = true
  · rw [if_neg (by simp [h1])]
    by_cases h2 : c.representative ≠ [] ∧ debts ≠ [] ∧ netCommissionOf c debts ≤ 0
    · rw [if_pos h2]
    · rw [if_neg h2]
      by_cases h3 : c.saleIds = []
      · rw [if_pos h3]
      · rw [if_neg h3]
        by_cases h4 : sales = []
        · rw [if_pos h4]
        · rw [if_neg h4]
          by_cases h5 : buildProjectGroups sales = []
          · rw [if_pos h5]
          · exact absurd ⟨h1, h2, h3, h4, h5⟩ h
  · rw [if_pos (by simpa using h1)]

theorem process_wf (c : Commission) (debts : List Debt) (sales : List Sale)
    (month : String) (year : Nat) (S : Store) (hwf : S.WF) :
    (processSalesRepCommission noErr c debts sales month year S).1.WF := by
  by_cases h : reachesWrites c debts sales
  · rw [process_eq_writeGroups _ _ _ _ _ _ _ h]
    exact writeGroups_wf _ _ _ _ _ _ _ hwf
  · rw [process_eq_skip _ _ _ _ _ _ _ h]
    exact hwf

theorem process_frame (c : Commission) (debts : List Debt) (sales : List Sale)
    (month : String) (year : Nat) (S : Store) (k : String) (hwf : S.WF)
    (hk : k ∉ groupKeys c (buildProjectGroups sales)) :
    findByKey k (processSalesRepCommission noErr c debts sales month year S).1.recs
      = findByKey k S.recs := by
  by_cases h : reachesWrites c debts sales
  · rw [process_eq_writeGroups _ _ _ _ _ _ _ h]
    exact writeGroups_frame _ _ _ _ _ _ _ _ hwf hk
  · rw [process_eq_skip _ _ _ _ _ _ _ h]

theorem process_atMostOne (c : Commission) (debts : List Debt)
    (sales : List Sale) (month : String) (year : Nat) (S : Store)
    (hwf : S.WF) (hone : AtMostOnePerKey S) :
    AtMostOnePerKey (processSalesRepCommission noErr c debts sales month year S).1 := by
  by_cases h : reachesWrites c debts sales
  · rw [process_eq_writeGroups _ _ _ _ _ _ _ h]
    exact writeGroups_atMostOne _ _ _ _ _ _ _ hwf hone
  · rw [process_eq_skip _ _ _ _ _ _ _ h]
    exact hone

theorem groupKeys_nodup (c : Commission) (sales : List Sale) :
    (groupKeys c (buildProjectGroups sales)).Nodup := by
  have h1 := buildProjectGroups_keys_nodup sales
  have heq : groupKeys c (buildProjectGroups sales)
      = ((buildProjectGroups sales).map Prod.fst).map (expenseKey c.id) := by
    simp [groupKeys, List.map_map]
  rw [heq]
  exact h1.map_on (fun x _ y _ h => expenseKey_inj_proj h)

theorem process_post (c : Commission) (debts : List Debt) (sales : List Sale)
    (month : String) (year : Nat) (S : Store) (hwf : S.WF)
    (h : reachesWrites c debts sales) :
    ∀ pg ∈ buildProjectGroups sales, ∃ n,
      findByKey (expenseKey c.id pg.1)
          (processSalesRepCommission noErr c debts sales month year S).1.recs
        = some ⟨n, groupFields c (netCommissionOf c debts)
            (totalSalesAmountOf sales) month year pg⟩ := by
  rw [process_eq_writeGroups _ _ _ _ _ _ _ h]
  exact writeGroups_post _ _ _ _ _ _ _ hwf (groupKeys_nodup c sales)

theorem process_noop (c : Commission) (debts : List Debt) (sales : List Sale)
    (month : String) (year : Nat) (S : Store) (hwf : S.WF)
    (hpre : reachesWrites c debts sales →
      ∀ pg ∈ buildProjectGroups sales, ∃ n,
        findByKey (expenseKey c.id pg.1) S.recs
          = some ⟨n, groupFields c (netCommissionOf c debts)
              (totalSalesAmountOf sales) month year pg⟩) :
    (processSalesRepCommission noErr c debts sales month year S).1 = S ∧
    (processSalesRepCommission noErr c debts sales month year S).2.created = 0 := by
  by_cases h : reachesWrites c debts sales
  · rw [process_eq_writeGroups _ _ _ _ _ _ _ h]
    rw [writeGroups_noop _ _ _ _ _ _ _ hwf (hpre h)]
    exact ⟨rfl, rfl⟩
  · rw [process_eq_skip _ _ _ _ _ _ _ h]
    exact ⟨rfl, rfl⟩

/-- Keys disjointness across the jobs of a month run. -/
def JobsDisjoint (jobs : List Job) : Prop :=
  List.Pairwise (fun j1 j2 => ∀ k ∈ writtenKeys j1, k ∉ writtenKeys j2) jobs

theorem writtenKeys_eq (j : Job) :
    writtenKeys j = groupKeys j.c (buildProjectGroups j.sales) := rfl

theorem runMonth_cons_fails (lerr : String → Bool) (month : String) (year : Nat)
    (j : Job) (rest : List Job) (S : Store) (hf : j.fails = true) :
    runMonth lerr month year (j :: rest) S =
      ((runMonth lerr month year rest S).1,
       ⟨(runMonth lerr month year rest S).2.created,
        (runMonth lerr month year rest S).2.updated,
        (runMonth lerr month year rest S).2.skipped,
        (runMonth lerr month year rest S).2.errors + 1⟩) := by
  simp [runMonth, hf]

theorem runMonth_cons_ok (lerr : String → Bool) (month : String) (year : Nat)
    (j : Job) (rest : List Job) (S : Store) (hf : j.fails = false) :
    runMonth lerr month year (j :: rest) S =
      ((runMonth lerr month year rest
          (processSalesRepCommission lerr j.c j.debts j.sales month year S).1).1,
       ⟨(runMonth lerr month year rest
           (processSalesRepCommission lerr j.c j.debts j.sales month year S).1).2.created
          + (processSalesRepCommission lerr j.c j.debts j.sales month year S).2.created,
        (runMonth lerr month year rest
           (processSalesRepCommission lerr j.c j.debts j.sales month year S).1).2.updated
          + (processSalesRepCommission lerr j.c j.debts j.sales month year S).2.updated,
        (runMonth lerr month year rest
           (processSalesRepCommission lerr j.c j.debts j.sales month year S).1).2.skipped
          + (processSalesRepCommission lerr j.c j.debts j.sales month year S).2.skipped,
        (runMonth lerr month year rest
           (processSalesRepCommission lerr j.c j.debts j.sales month year S).1).2.errors
          + (processSalesRepCommission lerr j.c j.debts j.sales month year S).2.errors⟩) := by
  simp [runMonth, hf]

theorem runMonth_wf (month : String) (year : Nat) (jobs : List Job)
    (S : Store) (hwf : S.WF) :
    (runMonth noErr month year jobs S).1.WF := by
  induction jobs generalizing S with
  | nil => simpa [runMonth]
  | cons j rest ih =>
    by_cases hf : j.fails
    · rw [runMonth_cons_fails _ _ _ _ _ _ hf]
      exact ih S hwf
    · rw [runMonth_cons_ok _ _ _ _ _ _ (by simpa using hf)]
      exact ih _ (process_wf _ _ _ _ _ _ hwf)

theorem runMonth_frame (month : String) (year : Nat) (jobs : List Job)
    (S : Store) (k : String) (hwf : S.WF)
    (hk : ∀ j ∈ jobs, k ∉ writtenKeys j) :
    findByKey k (runMonth noErr month year jobs S).1.recs = findByKey k S.recs := by
  induction jobs generalizing S with
  | nil => simp [runMonth]
  | cons j rest ih =>
    by_cases hf : j.fails
    · rw [runMonth_cons_fails _ _ _ _ _ _ hf]
      exact ih S hwf (fun j2 h2 => hk j2 (List.mem_cons_of_mem _ h2))
    · rw [runMonth_cons_ok _ _ _ _ _ _ (by simpa using hf)]
      rw [ih _ (process_wf _ _ _ _ _ _ hwf)
        (fun j2 h2 => hk j2 (List.mem_cons_of_mem _ h2))]
      exact process_frame _ _ _ _ _ _ _ hwf
        (by rw [← writtenKeys_eq]; exact hk j (List.mem_cons_self _ _))

theorem runMonth_atMostOne (month : String) (year : Nat) (jobs : List Job)
    (S : Store) (hwf : S.WF) (hone : AtMostOnePerKey S) :
    AtMostOnePerKey (runMonth noErr month year jobs S).1 := by
  induction jobs generalizing S with
  | nil => simpa [runMonth]
  | cons j rest ih =>
    by_cases hf : j.fails
    · rw [runMonth_cons_fails _ _ _ _ _ _ hf]
      exact ih S hwf hone
    · rw [runMonth_cons_ok _ _ _ _ _ _ (by simpa using hf)]
      exact ih _ (process_wf _ _ _ _ _ _ hwf)
        (process_atMostOne _ _ _ _ _ _ hwf hone)

theorem runMonth_post (month : String) (year : Nat) (jobs : List Job)
    (S : Store) (hwf : S.WF)
    (hnf : ∀ j ∈ jobs, j.fails = false)
    (hdisj : JobsDisjoint jobs) :
    ∀ j ∈ jobs, reachesWrites j.c j.debts j.sales →
      ∀ pg ∈ buildProjectGroups j.sales, ∃ n,
        findByKey (expenseKey j.c.id pg.1)
            (runMonth noErr month year jobs S).1.recs
          = some ⟨n, groupFields j.c (netCommissionOf j.c j.debts)
              (totalSalesAmountOf j.sales) month year pg⟩ := by
  induction jobs generalizing S with
  | nil => simp
  | cons j rest ih =>
    have hf : j.fails = false := hnf j (List.mem_cons_self _ _)
    rw [runMonth_cons_ok _ _ _ _ _ _ hf]
    intro j2 hj2 hreach pg hpg
    have hdhead := (List.pairwise_cons.mp hdisj).1
    have hdrest := (List.pairwise_cons.mp hdisj).2
    rcases List.mem_cons.mp hj2 with h1 | h2
    · subst h1
      obtain ⟨n, hn⟩ := process_post j2.c j2.debts j2.sales month year S hwf hreach pg hpg
      refine ⟨n, ?_⟩
      have hkmem : expenseKey j2.c.id pg.1 ∈ writtenKeys j2 := by
        rw [writtenKeys_eq]
        simp only [groupKeys, List.mem_map]
        exact ⟨pg, hpg, rfl⟩
      have hframe := runMonth_frame month year rest
        (processSalesRepCommission noErr j2.c j2.debts j2.sales month year S).1
        (expenseKey j2.c.id pg.1) (process_wf _ _ _ _ _ _ hwf)
        (fun jr hjr => hdhead jr hjr _ hkmem)
      rw [hframe]
      exact hn
    · exact ih _ (process_wf _ _ _ _ _ _ hwf)
        (fun x hx => hnf x (List.mem_cons_of_mem _ hx)) hdrest j2 h2 hreach pg hpg

theorem runMonth_noop (month : String) (year : Nat) (jobs : List Job)
    (S : Store) (hwf : S.WF)
    (hnf : ∀ j ∈ jobs, j.fails = false)
    (hpre : ∀ j ∈ jobs, reachesWrites j.c j.debts j.sales →
      ∀ pg ∈ buildProjectGroups j.sales, ∃ n,
        findByKey (expenseKey j.c.id pg.1) S.recs
          = some ⟨n, groupFields j.c (netCommissionOf j.c j.debts)
              (totalSalesAmountOf j.sales) month year pg⟩) :
    (runMonth noErr month year jobs S).1 = S ∧
    (runMonth noErr month year jobs S).2.created = 0 := by
  induction jobs with
  | nil => simp [runMonth]
  | cons j rest ih =>
    have hf : j.fails = false := hnf j (List.mem_cons_self _ _)
    rw [runMonth_cons_ok _ _ _ _ _ _ hf]
    have hone := process_noop j.c j.debts j.sales month year S hwf
      (hpre j (List.mem_cons_self _ _))
    have ihr := ih (fun x hx => hnf x (List.mem_cons_of_mem _ hx))
      (fun x hx => hpre x (List.mem_cons_of_mem _ hx))
    constructor
    · rw [hone.1]
      exact ihr.1
    · rw [hone.1]
      simp [ihr.2, hone.2]

/-- Claim C1: the sales-rep reconciler keeps at most one DerivedExpense per
natural key (it looks each deterministic expense id up before writing,
updating when found and creating only when not found), and re-running the
month pipeline with unchanged inputs yields zero new creates on the second
run and the identical final store (hence identical final amounts).
Hypotheses: a well-formed store, the at-most-one invariant on entry, no
thrown per-commission errors, and distinct commissions writing disjoint
key sets (which holds for distinct Airtable commission record ids). -/
theorem C1_reconciler_at_most_one_and_idempotent
    (month : String) (year : Nat) (jobs : List Job) (S : Store)
    (hwf : S.WF) (hone : AtMostOnePerKey S)
    (hnf : ∀ j ∈ jobs, j.fails = false)
    (hdisj : JobsDisjoint jobs) :
    AtMostOnePerKey (runMonth noErr month year jobs S).1 ∧
    (runMonth noErr month year jobs (runMonth noErr month year jobs S).1).2.created = 0 ∧
    (runMonth noErr month year jobs (runMonth noErr month year jobs S).1).1
      = (runMonth noErr month year jobs S).1 := by
  have hwf1 := runMonth_wf month year jobs S hwf
  have hpost := runMonth_post month year jobs S hwf hnf hdisj
  have hnoop := runMonth_noop month year jobs
    ((runMonth noErr month year jobs S).1) hwf1 hnf hpost
  exact ⟨runMonth_atMostOne _ _ _ _ hwf hone, hnoop.2, hnoop.1⟩

/-- A concrete commission job: one commission of 100 RON with one linked
50-RON sale in project ProiectA, no outstanding debts. -/
def c1Job : Job :=
  ⟨⟨"rec1", 100, ["s1"], "Ana Pop - Octombrie", some "Ana Pop", ["rep1"]⟩,
   [], [⟨"s1", "ProiectA", 50⟩], false⟩

/-- Witness for C1 at a concrete input: the empty store and one job. -/
theorem C1_witness :
    AtMostOnePerKey (runMonth noErr "Octombrie" 2025 [c1Job] ⟨[], 0⟩).1 ∧
    (runMonth noErr "Octombrie" 2025 [c1Job]
      (runMonth noErr "Octombrie" 2025 [c1Job] ⟨[], 0⟩).1).2.created = 0 ∧
    (runMonth noErr "Octombrie" 2025 [c1Job]
      (runMonth noErr "Octombrie" 2025 [c1Job] ⟨[], 0⟩).1).1
      = (runMonth noErr "Octombrie" 2025 [c1Job] ⟨[], 0⟩).1 :=
  C1_reconciler_at_most_one_and_idempotent "Octombrie" 2025 [c1Job] ⟨[], 0⟩
    (by constructor <;> simp)
    (fun k => by simp [countKey])
    (by intro j hj; simp at hj; rw [hj]; rfl)
    (by simp [JobsDisjoint])

/-!
Debt ledger (getRepresentativeDebts and the deduction in
processSalesRepCommission).
-/

/-- Mirrors airtableService.js getRepresentativeDebts (lines 665-716): the
try branch keeps the query rows with a truthy negative final commission,
the catch branch (err) returns the empty list. -/
def getRepresentativeDebts (err : Bool) (rows : List Debt) : List Debt :=
  if err then [] else rows.filter (fun d => decide (d.amount < 0))

theorem list_sum_nonpos {l : List ℚ} (h : ∀ x ∈ l, x ≤ 0) : l.sum ≤ 0 := by
  induction l with
  | nil => simp
  | cons a rest ih =>
    rw [List.sum_cons]
    have ha := h a (List.mem_cons_self _ _)
    have hr := ih (fun x hx => h x (List.mem_cons_of_mem _ hx))
    linarith

theorem abs_sum_eq_sum_abs_of_neg {l : List ℚ} (h : ∀ x ∈ l, x < 0) :
    |l.sum| = (l.map (fun x => |x|)).sum := by
  induction l with
  | nil => simp
  | cons a rest ih =>
    have ha : a ≤ 0 := (h a (List.mem_cons_self _ _)).le
    have hrest : rest.sum ≤ 0 :=
      list_sum_nonpos (fun x hx => (h x (List.mem_cons_of_mem _ hx)).le)
    have hsum : a + rest.sum ≤ 0 := by linarith
    rw [List.sum_cons, List.map_cons, List.sum_cons,
      abs_of_nonpos hsum, abs_of_nonpos ha,
      ← ih (fun x hx => h x (List.mem_cons_of_mem _ hx)),
      abs_of_nonpos hrest]
    ring

/-- Claim C3: with outstanding prior-period debts (all negative), the net
commission fed to allocation equals the current final commission minus the
sum of the absolute values of the negative records, and whenever that net
is non-positive the commission is skipped: the store is unchanged, zero
expenses are created, and the run terminates normally. -/
theorem C3_debt_ledger_net_and_skip (lerr : String → Bool) (c : Commission)
    (debts : List Debt) (sales : List Sale) (month : String) (year : Nat)
    (S : Store)
    (hpos : 0 < c.finalCommission)
    (hrep : c.representative ≠ [])
    (hdebts : debts ≠ [])
    (hneg : ∀ d ∈ debts, d.amount < 0) :
    netCommissionOf c debts
      = c.finalCommission - (debts.map (fun d => |d.amount|)).sum ∧
    (netCommissionOf c debts ≤ 0 →
      processSalesRepCommission lerr c debts sales month year S
        = (S, ⟨0, 0, 1, 0⟩)) := by
  constructor
  · unfold netCommissionOf
    rw [if_pos ⟨hrep, hdebts⟩]
    rw [abs_sum_eq_sum_abs_of_neg (l := debts.map (·.amount))
      (by intro x hx
          obtain ⟨d, hd, hdx⟩ := List.mem_map.mp hx
          rw [← hdx]
          exact hneg d hd)]
    rw [List.map_map]
    rfl
  · intro hnet
    unfold processSalesRepCommission
    rw [if_neg (show ¬¬(isValidExpenseAmount c.finalCommission = true) by
      simp [isValidExpenseAmount, hpos])]
    rw [if_pos ⟨hrep, hdebts, hnet⟩]

/-- Concrete debt scenario: commission 100, prior debts of -80 and -30. -/
def c3Commission : Commission :=
  ⟨"rec3", 100, ["s3"], "Ion Pop - Octombrie", some "Ion Pop", ["rep3"]⟩

/-- Witness for C3: net = 100 - (80 + 30) = -10 ≤ 0 and the run skips. -/
theorem C3_witness :
    netCommissionOf c3Commission [⟨"d1", "August", -80⟩, ⟨"d2", "Septembrie", -30⟩]
      = c3Commission.finalCommission
        - (([⟨"d1", "August", -80⟩, ⟨"d2", "Septembrie", -30⟩] : List Debt).map
            (fun d => |d.amount|)).sum ∧
    processSalesRepCommission noErr c3Commission
        [⟨"d1", "August", -80⟩, ⟨"d2", "Septembrie", -30⟩]
        [⟨"s3", "ProiectA", 50⟩] "Octombrie" 2025 ⟨[], 0⟩
      = (⟨[], 0⟩, ⟨0, 0, 1, 0⟩) := by
  have h := C3_debt_ledger_net_and_skip noErr c3Commission
    [⟨"d1", "August", -80⟩, ⟨"d2", "Septembrie", -30⟩]
    [⟨"s3", "ProiectA", 50⟩] "Octombrie" 2025 ⟨[], 0⟩
    (by norm_num [c3Commission])
    (by simp [c3Commission])
    (by simp)
    (by intro d hd; simp at hd; rcases hd with h | h <;> simp [h])
  refine ⟨h.1, h.2 ?_⟩
  rw [h.1]
  norm_num [c3Commission]

/-!
Debt-fetch failure (claim C10).
-/

/-- Claim C10 (implicit): when the debt query fails, getRepresentativeDebts
returns the empty list instead of propagating the error, so the
outstanding debt of the payee is silently treated as zero: the net commission equals the
full gross commission and processing proceeds exactly as if no debt
existed, allocating the full gross amount. -/
theorem C10_debt_fetch_failure_treated_as_no_debt (lerr : String → Bool)
    (c : Commission) (rows : List Debt) (sales : List Sale) (month : String)
    (year : Nat) (S : Store)
    (hreach : reachesWrites c [] sales) :
    getRepresentativeDebts true rows = [] ∧
    processSalesRepCommission lerr c (getRepresentativeDebts true rows)
        sales month year S
      = processSalesRepCommission lerr c [] sales month year S ∧
    netCommissionOf c [] = c.finalCommission ∧
    processSalesRepCommission lerr c (getRepresentativeDebts true rows)
        sales month year S
      = writeGroups lerr c c.finalCommission (totalSalesAmountOf sales)
          month year S (buildProjectGroups sales) := by
  have hempty : getRepresentativeDebts true rows = [] := by
    simp [getRepresentativeDebts]
  have hnet : netCommissionOf c [] = c.finalCommission := by
    simp [netCommissionOf]
  refine ⟨hempty, by rw [hempty], hnet, ?_⟩
  rw [hempty, process_eq_writeGroups _ _ _ _ _ _ _ hreach, hnet]

/-- Witness for C10: a commission with a failing debt query allocates the
full gross commission. -/
theorem C10_witness :
    getRepresentativeDebts true [⟨"d1", "August", -80⟩] = [] ∧
    processSalesRepCommission noErr c1Job.c
        (getRepresentativeDebts true [⟨"d1", "August", -80⟩])
        [⟨"s1", "ProiectA", 50⟩] "Octombrie" 2025 ⟨[], 0⟩
      = processSalesRepCommission noErr c1Job.c [] [⟨"s1", "ProiectA", 50⟩]
          "Octombrie" 2025 ⟨[], 0⟩ ∧
    netCommissionOf c1Job.c [] = c1Job.c.finalCommission ∧
    processSalesRepCommission noErr c1Job.c
        (getRepresentativeDebts true [⟨"d1", "August", -80⟩])
        [⟨"s1", "ProiectA", 50⟩] "Octombrie" 2025 ⟨[], 0⟩
      = writeGroups noErr c1Job.c c1Job.c.finalCommission
          (totalSalesAmountOf [⟨"s1", "ProiectA", 50⟩]) "Octombrie" 2025 ⟨[], 0⟩
          (buildProjectGroups [⟨"s1", "ProiectA", 50⟩]) :=
  C10_debt_fetch_failure_treated_as_no_debt noErr c1Job.c
    [⟨"d1", "August", -80⟩] [⟨"s1", "ProiectA", 50⟩] "Octombrie" 2025 ⟨[], 0⟩
    (by constructor
        · decide
        · refine ⟨by simp, by decide, by decide, by decide⟩)

/-!
Proportional allocation (claim C2): the sales-rep write loop rounds each
share to 2 decimals; the copywriting distribution stores the share
unrounded.
-/

/-- A validated copywriting sale (copywritingService.js lines 232-236). -/
structure CWSale where
  id : String
  amountWithoutVat : ℚ
  project : String
deriving DecidableEq, Repr

/-- Per-project accumulator of the copywriting grouping loop
(copywritingService.js lines 259-278). -/
structure CWProject where
  project : String
  projectSalesValue : ℚ
  salesCount : Nat
  saleIds : List String
deriving DecidableEq, Repr

/-- Proportional distribution of the total copywriting commission across
projects (copywritingService.js lines 281-291): projectCommission =
totalCommissionRON * (projectSalesValue / totalSalesValueRON); this value
is stored as the expense amount without rounding (line 382). -/
def distributeCommission (totalCommissionRON totalSalesValueRON : ℚ)
    (groups : List CWProject) : List (CWProject × ℚ) :=
  groups.map (fun d =>
    (d, totalCommissionRON * (d.projectSalesValue / totalSalesValueRON)))

/-- Validation loop of processCopywritingCommissions (copywritingService.js
lines 195-237): sales with a non-positive amount or missing project are
counted as skipped; a null amount is modelled as non-positive. -/
def validateCWSales : List CWSale → List CWSale × Nat
  | [] => ([], 0)
  | s :: rest =>
    let r := validateCWSales rest
    if s.amountWithoutVat ≤ 0 then (r.1, r.2 + 1)
    else if s.project = "" then (r.1, r.2 + 1)
    else (s :: r.1, r.2)

theorem round2_nonneg {x : ℚ} (h : 0 ≤ x) : 0 ≤ round2 x := by
  unfold round2
  apply div_nonneg _ (by norm_num)
  have : (0 : ℤ) ≤ ⌊x * 100 + 1/2⌋ := by
    apply Int.le_floor.mpr
    push_cast
    linarith
  exact_mod_cast this

theorem round2_sub_le (x : ℚ) : |round2 x - x| ≤ 1/200 := by
  have h1 : (⌊x * 100 + 1/2⌋ : ℚ) ≤ x * 100 + 1/2 := Int.floor_le _
  have h2 : x * 100 + 1/2 - 1 < (⌊x * 100 + 1/2⌋ : ℚ) := Int.sub_one_lt_floor _
  unfold round2
  rw [abs_le]
  constructor <;> linarith

theorem sum_map_round2_err (l : List ℚ) :
    |(l.map round2).sum - l.sum| ≤ (l.length : ℚ) * (1/200) := by
  induction l with
  | nil => simp
  | cons a rest ih =>
    simp only [List.map_cons, List.sum_cons, List.length_cons]
    have ha := round2_sub_le a
    have htri : |round2 a + (rest.map round2).sum - (a + rest.sum)|
        ≤ |round2 a - a| + |(rest.map round2).sum - rest.sum| := by
      have : round2 a + (rest.map round2).sum - (a + rest.sum)
          = (round2 a - a) + ((rest.map round2).sum - rest.sum) := by ring
      rw [this]
      exact abs_add _ _
    push_cast
    linarith

theorem sum_mul_div (A W : ℚ) (l : List ℚ) :
    (l.map (fun w => A * (w / W))).sum = A * l.sum / W := by
  induction l with
  | nil => simp
  | cons a rest ih =>
    simp only [List.map_cons, List.sum_cons, ih]
    have h1 : A * (a / W) = A * a / W := (mul_div_assoc A a W).symm
    rw [h1, div_add_div_same, ← mul_add]

/-- Counterexample to claim C2 as stated: the copywriting allocation at
copywritingService.js lines 281-291 is stored unrounded, so an allocation
with a sub-cent share (total commission 0.0555 RON over weights 0.11 and
1.00) is 0.0055 RON, not the claimed round-half-up value 0.01 RON. -/
theorem C2_counterexample :
    ((distributeCommission (111/2000) (111/100)
        [⟨"A", 11/100, 1, ["s1"]⟩, ⟨"B", 1, 1, ["s2"]⟩]).map (·.2))
      = [11/2000, 1/20] ∧
    (11/2000 : ℚ) ≠ round2 ((111/2000) * ((11/100) / (111/100))) := by
  constructor
  · simp [distributeCommission]
    norm_num
  · norm_num [round2, Int.floor_eq_iff]

/-- Claim C2 amended: in the sales-rep path the written amount per group is
the proportional share A*(w/Σw) rounded half-up to 2 decimals, every
allocation is non-negative, and the sum of the rounded allocations differs
from A by at most 0.005*n (hence by at most 0.01*(n-1) whenever n ≥ 2); in
the copywriting path the allocations are the exact unrounded shares, which
are non-negative and sum exactly to A; and when the total weight is zero
the sales-rep payee/period is skipped (no division by zero is attempted,
store unchanged, skipped counted). -/
theorem C2_proportional_allocation_amended
    (net : ℚ) (gs : List (String × SRGroup)) (c : Commission)
    (debts : List Debt) (month : String) (year : Nat)
    (A Wc : ℚ) (groups : List CWProject)
    (salesz : List Sale) (S : Store)
    (hnet : 0 ≤ net)
    (hw : ∀ pg ∈ gs, 0 < pg.2.totalAmount)
    (hWpos : 0 < sumWeights gs)
    (hA : 0 ≤ A)
    (hgw : ∀ d ∈ groups, 0 ≤ d.projectSalesValue)
    (hWc : Wc = (groups.map (·.projectSalesValue)).sum)
    (hWcpos : 0 < Wc)
    (hzero : totalSalesAmountOf salesz = 0) :
    (∀ pg ∈ gs, (groupFields c net (sumWeights gs) month year pg).amount
        = round2 (net * (pg.2.totalAmount / sumWeights gs))) ∧
    (∀ pg ∈ gs, 0 ≤ round2 (net * (pg.2.totalAmount / sumWeights gs))) ∧
    |(gs.map (fun pg => round2 (net * (pg.2.totalAmount / sumWeights gs)))).sum - net|
      ≤ (gs.length : ℚ) * (1/200) ∧
    (2 ≤ gs.length → (gs.length : ℚ) * (1/200) ≤ ((gs.length : ℚ) - 1) * (1/100)) ∧
    ((distributeCommission A Wc groups).map (·.2)).sum = A ∧
    (∀ x ∈ (distributeCommission A Wc groups).map (·.2), 0 ≤ x) ∧
    processSalesRepCommission noErr c debts salesz month year S = (S, ⟨0, 0, 1, 0⟩) := by
  refine ⟨?_, ?_, ?_, ?_, ?_, ?_, ?_⟩
  · intro pg _
    unfold groupFields mkExpenseFields
    simp only []
    rw [if_pos hWpos]
  · intro pg hpg
    exact round2_nonneg (mul_nonneg hnet
      (div_nonneg (hw pg hpg).le hWpos.le))
  · have hmm : gs.map (fun pg => round2 (net * (pg.2.totalAmount / sumWeights gs)))
        = ((gs.map (·.2.totalAmount)).map (fun w => net * (w / sumWeights gs))).map round2 := by
      simp [List.map_map, Function.comp]
    have hsum : ((gs.map (·.2.totalAmount)).map
        (fun w => net * (w / sumWeights gs))).sum = net := by
      rw [sum_mul_div]
      show net * sumWeights gs / sumWeights gs = net
      rw [mul_div_assoc, div_self (ne_of_gt hWpos), mul_one]
    have hbound := sum_map_round2_err ((gs.map (·.2.totalAmount)).map
      (fun w => net * (w / sumWeights gs)))
    rw [hsum] at hbound
    rw [hmm]
    simpa using hbound
  · intro h2
    have h2q : (2 : ℚ) ≤ (gs.length : ℚ) := by exact_mod_cast h2
    linarith
  · have : (distributeCommission A Wc groups).map (·.2)
        = (groups.map (·.projectSalesValue)).map (fun w => A * (w / Wc)) := by
      simp [distributeCommission, List.map_map, Function.comp]
    rw [this, sum_mul_div, ← hWc, mul_div_assoc, div_self (ne_of_gt hWcpos), mul_one]
  · intro x hx
    simp only [distributeCommission, List.map_map, List.mem_map] at hx
    obtain ⟨d, hd, hdx⟩ := hx
    rw [← hdx]
    exact mul_nonneg hA (div_nonneg (hgw d hd) hWcpos.le)
  · have hgroups : buildProjectGroups salesz = [] := by
      by_contra hne
      have := totalSalesAmount_pos_of_groups_ne_nil hne
      rw [hzero] at this
      exact lt_irrefl 0 this
    exact process_eq_skip _ _ _ _ _ _ _ (fun hreach => hreach.2.2.2.2 hgroups)

/-- Witness for the amended C2 at concrete inputs (two groups, so the
0.01*(n-1) bound applies). -/
theorem C2_amended_witness :
    (∀ pg ∈ [("A", (⟨50, 1, ["s"]⟩ : SRGroup)), ("B", ⟨30, 1, ["t"]⟩)],
      (groupFields c1Job.c 10
          (sumWeights [("A", ⟨50, 1, ["s"]⟩), ("B", ⟨30, 1, ["t"]⟩)]) "Octombrie" 2025 pg).amount
        = round2 (10 * (pg.2.totalAmount
            / sumWeights [("A", ⟨50, 1, ["s"]⟩), ("B", ⟨30, 1, ["t"]⟩)]))) ∧
    (∀ pg ∈ [("A", (⟨50, 1, ["s"]⟩ : SRGroup)), ("B", ⟨30, 1, ["t"]⟩)],
      0 ≤ round2 (10 * (pg.2.totalAmount
          / sumWeights [("A", ⟨50, 1, ["s"]⟩), ("B", ⟨30, 1, ["t"]⟩)]))) ∧
    |(([("A", (⟨50, 1, ["s"]⟩ : SRGroup)), ("B", ⟨30, 1, ["t"]⟩)].map
        (fun pg => round2 (10 * (pg.2.totalAmount
          / sumWeights [("A", ⟨50, 1, ["s"]⟩), ("B", ⟨30, 1, ["t"]⟩)])))).sum - 10)|
      ≤ (([("A", (⟨50, 1, ["s"]⟩ : SRGroup)), ("B", ⟨30, 1, ["t"]⟩)].length : ℚ)) * (1/200) ∧
    (2 ≤ [("A", (⟨50, 1, ["s"]⟩ : SRGroup)), ("B", ⟨30, 1, ["t"]⟩)].length →
      (([("A", (⟨50, 1, ["s"]⟩ : SRGroup)), ("B", ⟨30, 1, ["t"]⟩)].length : ℚ)) * (1/200)
        ≤ (([("A", (⟨50, 1, ["s"]⟩ : SRGroup)), ("B", ⟨30, 1, ["t"]⟩)].length : ℚ) - 1) * (1/100)) ∧
    ((distributeCommission 15 3 [⟨"P", 3, 1, []⟩]).map (·.2)).sum = 15 ∧
    (∀ x ∈ (distributeCommission 15 3 [⟨"P", 3, 1, []⟩]).map (·.2), 0 ≤ x) ∧
    processSalesRepCommission noErr c1Job.c [] [] "Octombrie" 2025 ⟨[], 0⟩
      = (⟨[], 0⟩, ⟨0, 0, 1, 0⟩) :=
  C2_proportional_allocation_amended 10
    [("A", ⟨50, 1, ["s"]⟩), ("B", ⟨30, 1, ["t"]⟩)] c1Job.c []
    "Octombrie" 2025 15 3 [⟨"P", 3, 1, []⟩] [] ⟨[], 0⟩
    (by norm_num)
    (by intro pg hpg
        simp at hpg
        rcases hpg with h | h <;> rw [h] <;> norm_num)
    (by norm_num [sumWeights])
    (by norm_num)
    (by intro d hd; simp at hd; rw [hd]; norm_num)
    (by norm_num)
    (by norm_num)
    (by simp [totalSalesAmountOf])

/-!
Progressive tiered commission (copywritingService.js
calculateProgressiveCommission, lines 75-127).
-/

/-- A commission tier: max threshold in EUR (none models Infinity) and the
marginal rate. -/
structure Tier where
  max : Option ℚ
  rate : ℚ
deriving DecidableEq, Repr

/-- The tier walk of calculateProgressiveCommission (lines 85-114):
previousThreshold is an extended rational (none models Infinity, reachable
only after an infinite tier). With IEEE semantics, a finite tier after an
infinite threshold has width -Infinity (skipped), an infinite tier after a
finite threshold has width Infinity (absorbs the whole remainder), and
Infinity - Infinity is NaN (comparison false, skipped). -/
def progressiveLoop : List Tier → Option ℚ → ℚ → ℚ
  | [], _, _ => 0
  | t :: rest, prev, remaining =>
    if remaining ≤ 0 then 0
    else
      match t.max, prev with
      | some m, some p =>
        let tierAmount := min remaining (m - p)
        if 0 < tierAmount then
          tierAmount * t.rate + progressiveLoop rest (some m) (remaining - tierAmount)
        else
          progressiveLoop rest (some m) remaining
      | some m, none =>
        progressiveLoop rest (some m) remaining
      | none, some _ =>
        remaining * t.rate + progressiveLoop rest none 0
      | none, none =>
        progressiveLoop rest none remaining

/-- Mirrors calculateProgressiveCommission: convert the RON basis to EUR,
walk the tiers from threshold 0, convert the summed EUR commission back to
RON (lines 77, 87, 117). Tiers and the EUR/RON rate are the COPYWRITING
configuration values, passed as parameters. -/
def calculateProgressiveCommission (tiers : List Tier) (eurRonRate totalSalesRON : ℚ) : ℚ :=
  progressiveLoop tiers (some 0) (totalSalesRON / eurRonRate) * eurRonRate

/-- The tier table named by the claim:
5 percent to 10000 EUR, 7.5 percent to 25000 EUR, 10 percent above. -/
def specTiers : List Tier :=
  [⟨some 10000, 5/100⟩, ⟨some 25000, 75/1000⟩, ⟨none, 10/100⟩]

theorem progressiveLoop_zero (tiers : List Tier) (prev : Option ℚ)
    {remaining : ℚ} (h : remaining ≤ 0) :
    progressiveLoop tiers prev remaining = 0 := by
  cases tiers with
  | nil => simp [progressiveLoop]
  | cons t rest => simp [progressiveLoop, h]

theorem progressiveLoop_cons_ss (m p r remaining : ℚ) (rest : List Tier)
    (hrem : ¬ remaining ≤ 0) :
    progressiveLoop (⟨some m, r⟩ :: rest) (some p) remaining =
      (if 0 < min remaining (m - p) then
        min remaining (m - p) * r
          + progressiveLoop rest (some m) (remaining - min remaining (m - p))
      else progressiveLoop rest (some m) remaining) := by
  simp [progressiveLoop, hrem]

theorem progressiveLoop_cons_ns (p r remaining : ℚ) (rest : List Tier)
    (hrem : ¬ remaining ≤ 0) :
    progressiveLoop (⟨none, r⟩ :: rest) (some p) remaining =
      remaining * r + progressiveLoop rest none 0 := by
  simp [progressiveLoop, hrem]

/-- Counterexample to claim C4 as stated: with the claimed tiers and rate
5.08, a basis of 30000 RON is about 5905.51 EUR, entirely within the first
tier, so the code yields exactly 1500 RON (5 percent of the basis), not
the claimed approximately 8717 RON. -/
theorem C4_counterexample :
    calculateProgressiveCommission specTiers (508/100) 30000 = 1500 ∧
    (1500 : ℚ) ≠ 8717 ∧ ¬ (|(1500 : ℚ) - 8717| ≤ 1000) := by
  refine ⟨?_, by norm_num, by norm_num⟩
  unfold calculateProgressiveCommission specTiers
  have hrem : ¬ ((30000 : ℚ) / (508/100) ≤ 0) := by norm_num
  rw [progressiveLoop_cons_ss _ _ _ _ _ hrem]
  have hmin : min ((30000 : ℚ) / (508/100)) (10000 - 0) = (30000 : ℚ) / (508/100) := by
    apply min_eq_left
    norm_num
  rw [hmin, if_pos (by norm_num)]
  rw [progressiveLoop_zero _ _ (by norm_num)]
  norm_num

/-- Claim C4 amended: the computed commission is the marginal tier walk on
the EUR-converted basis converted back to RON: a positive basis entirely
within the first tier yields basisEUR * tier1.rate converted back to RON;
with the claimed tiers a basis spanning all three tiers yields
(10000*0.05 + 15000*0.075 + (basisEUR-25000)*0.10) * rate; and the worked
example (tiers as claimed, rate 5.08, basis 30000 RON) yields exactly
1500 RON, not approximately 8717 RON. -/
theorem C4_progressive_commission_amended
    (basis rate m1 r1 : ℚ) (rest : List Tier) (basis2 rate2 : ℚ)
    (h1 : 0 < rate) (h2 : 0 < basis) (h3 : basis / rate ≤ m1)
    (h4 : 0 < rate2) (h5 : 25000 < basis2 / rate2) :
    calculateProgressiveCommission (⟨some m1, r1⟩ :: rest) rate basis
      = (basis / rate) * r1 * rate ∧
    calculateProgressiveCommission specTiers rate2 basis2
      = (10000 * (5/100) + 15000 * (75/1000)
          + (basis2 / rate2 - 25000) * (10/100)) * rate2 ∧
    calculateProgressiveCommission specTiers (508/100) 30000 = 1500 := by
  have hB2 : 0 < basis2 / rate2 := lt_trans (by norm_num) h5
  refine ⟨?_, ?_, ?_⟩
  · unfold calculateProgressiveCommission
    have hrem : ¬ (basis / rate ≤ 0) := not_le.mpr (div_pos h2 h1)
    rw [progressiveLoop_cons_ss _ _ _ _ _ hrem]
    have hmin : min (basis / rate) (m1 - 0) = basis / rate := by
      apply min_eq_left
      linarith
    rw [hmin, if_pos (div_pos h2 h1)]
    rw [progressiveLoop_zero _ _ (by linarith)]
    ring
  · unfold calculateProgressiveCommission specTiers
    have hrem : ¬ (basis2 / rate2 ≤ 0) := not_le.mpr hB2
    rw [progressiveLoop_cons_ss _ _ _ _ _ hrem]
    have hmin1 : min (basis2 / rate2) ((10000 : ℚ) - 0) = 10000 := by
      rw [show ((10000 : ℚ) - 0) = 10000 by norm_num]
      exact min_eq_right (by linarith)
    rw [hmin1, if_pos (by norm_num)]
    have hrem2 : ¬ (basis2 / rate2 - 10000 ≤ 0) := by
      intro h
      linarith
    rw [progressiveLoop_cons_ss _ _ _ _ _ hrem2]
    have hmin2 : min (basis2 / rate2 - 10000) ((25000 : ℚ) - 10000) = 15000 := by
      rw [show ((25000 : ℚ) - 10000) = 15000 by norm_num]
      exact min_eq_right (by linarith)
    rw [hmin2, if_pos (by norm_num)]
    have hrem3 : ¬ (basis2 / rate2 - 10000 - 15000 ≤ 0) := by
      intro h
      linarith
    rw [progressiveLoop_cons_ns _ _ _ _ hrem3]
    rw [progressiveLoop_zero _ _ (by norm_num)]
    ring
  · unfold calculateProgressiveCommission specTiers
    have hrem : ¬ ((30000 : ℚ) / (508/100) ≤ 0) := by norm_num
    rw [progressiveLoop_cons_ss _ _ _ _ _ hrem]
    have hmin : min ((30000 : ℚ) / (508/100)) (10000 - 0) = (30000 : ℚ) / (508/100) := by
      apply min_eq_left
      norm_num
    rw [hmin, if_pos (by norm_num)]
    rw [progressiveLoop_zero _ _ (by norm_num)]
    norm_num

/-- Witness for the amended C4 at concrete inputs. -/
theorem C4_amended_witness :
    calculateProgressiveCommission [⟨some 200, 3/100⟩] 1 100
      = (100 / 1) * (3/100) * 1 ∧
    calculateProgressiveCommission specTiers 1 30000
      = (10000 * (5/100) + 15000 * (75/1000)
          + (30000 / 1 - 25000) * (10/100)) * 1 ∧
    calculateProgressiveCommission specTiers (508/100) 30000 = 1500 :=
  C4_progressive_commission_amended 100 1 200 (3/100) [] 30000 1
    (by norm_num) (by norm_num) (by norm_num) (by norm_num) (by norm_num)

/-!
Monthly P&L summary rows (pnlService.js createPNLSummaryRecords,
lines 377-438).
-/

/-- One mapped expense row as consumed by the P&L aggregator
(pnlService.js lines 240-245). -/
structure PNLExpense where
  category : String
  expenseCategory : String
  amount : ℚ
  description : String
deriving DecidableEq, Repr

/-- An emitted P&L summary row. sumaRON and sumaEURO are optional because
the margin row carries no amounts (pnlService.js lines 406-410); the
percentage embedded in the description string of the margin row is modelled
numerically in descPercent (the toFixed display rounding is elided). -/
structure SummaryRow where
  name : String
  sumaRON : Option ℚ
  sumaEURO : Option ℚ
  descPercent : Option ℚ
deriving DecidableEq, Repr

/-- The fixed EUR/RON display rate (pnlService.js line 17). -/
def EUR_RON_RATE : ℚ := 508/100

/-- Mirrors createPNLSummaryRecords (pnlService.js lines 377-411): total
expense is the sum of the amounts, profit is revenue minus total, margin
percent is profit/revenue*100 when revenue is positive and 0 otherwise;
the margin row has no RON/EUR amount. -/
def createPNLSummaryRecords (revenue : ℚ) (expenses : List PNLExpense) :
    List SummaryRow :=
  let totalExpensesRON := (expenses.map (·.amount)).sum
  let totalExpensesEUR := totalExpensesRON / EUR_RON_RATE
  let profitRON := revenue - totalExpensesRON
  let profitEUR := profitRON / EUR_RON_RATE
  let marginPercent := if 0 < revenue then profitRON / revenue * 100 else 0
  [⟨"TOTAL CHELTUIELI", some totalExpensesRON, some totalExpensesEUR, none⟩,
   ⟨"TOTAL PROFIT", some profitRON, some profitEUR, none⟩,
   ⟨"MARJĂ PROFIT", none, none, some marginPercent⟩]

/-- Claim C5: for every project/period with revenue R and automatic-source
expense amounts, the emitted TotalExpense equals the sum of the amounts,
TotalProfit equals R minus that sum, the margin equals profit/R*100 when
R is positive and exactly 0 when R is not (no division by zero), and the
margin row carries no RON or EUR amount. -/
theorem C5_pnl_summary_records (revenue : ℚ) (expenses : List PNLExpense) :
    (createPNLSummaryRecords revenue expenses).length = 3 ∧
    ((createPNLSummaryRecords revenue expenses).get? 0
      = some ⟨"TOTAL CHELTUIELI", some ((expenses.map (·.amount)).sum),
          some ((expenses.map (·.amount)).sum / EUR_RON_RATE), none⟩) ∧
    ((createPNLSummaryRecords revenue expenses).get? 1
      = some ⟨"TOTAL PROFIT", some (revenue - (expenses.map (·.amount)).sum),
          some ((revenue - (expenses.map (·.amount)).sum) / EUR_RON_RATE), none⟩) ∧
    ((createPNLSummaryRecords revenue expenses).get? 2
      = some ⟨"MARJĂ PROFIT", none, none,
          some (if 0 < revenue
            then (revenue - (expenses.map (·.amount)).sum) / revenue * 100
            else 0)⟩) := by
  refine ⟨rfl, rfl, rfl, rfl⟩

/-!
Fuzzy name resolution (airtableService.js findRepresentativeByFuzzyName,
lines 418-526, with calculateSimilarity and getEditDistance,
lines 532-573).
-/

/-- One directory entry kept by the fuzzy search: Caller/Setter name, role
and the lowercased name (airtableService.js lines 444-451). -/
structure RepEntry where
  name : String
  role : String
  normalizedName : List Char
deriving DecidableEq, Repr

/-- A raw Reprezentanți row. -/
structure RepRow where
  id : String
  name : String
  role : String
deriving DecidableEq, Repr

/-- The page collection loop of findRepresentativeByFuzzyName (lines
438-452): keep rows with a truthy name whose role is Caller or Setter, and
attach the lowercased name. -/
def buildReps (rows : List RepRow) : List RepEntry :=
  (rows.filter (fun r =>
      decide (r.name ≠ "" ∧ (r.role = "Caller" ∨ r.role = "Setter")))).map
    (fun r => ⟨r.name, r.role, r.name.data.map Char.toLower⟩)

/-- Levenshtein distance. The source (getEditDistance, lines 547-573)
computes it with the standard dynamic-programming matrix; this is the
recurrence that matrix memoizes: matrix[i][j] = matrix[i-1][j-1] when the
characters agree and 1 + min(substitution, insertion, deletion)
otherwise, with first row/column equal to the prefix lengths. -/
def getEditDistance : List Char → List Char → Nat
  | [], t => t.length
  | a :: s, [] => (a :: s).length
  | a :: s, b :: t =>
    if a = b then getEditDistance s t
    else 1 + min (getEditDistance s t)
          (min (getEditDistance (a :: s) t) (getEditDistance s (b :: t)))
termination_by s t => s.length + t.length
decreasing_by all_goals simp_wf <;> omega

/-- Mirrors calculateSimilarity (lines 532-542): pick the longer string,
return 1 for two empty strings, else (longer - distance) / longer. -/
def calculateSimilarity (str1 str2 : List Char) : ℚ :=
  let longer := if str2.length < str1.length then str1 else str2
  let shorter := if str2.length < str1.length then str2 else str1
  if longer.length = 0 then 1
  else ((longer.length : ℚ) - getEditDistance longer shorter) / longer.length

/-- Prefix test used by the containment check. -/
def matchesAt : List Char → List Char → Bool
  | [], _ => true
  | _ :: _, [] => false
  | c :: cs, h :: hs => c = h && matchesAt cs hs

/-- JavaScript String.prototype.includes on character lists. -/
def includes : List Char → List Char → Bool
  | [], sub => matchesAt sub []
  | h :: hs, sub => matchesAt sub (h :: hs) || includes hs sub

/-- Mirrors findRepresentativeByFuzzyName (lines 418-526): exact
case-insensitive match first, then substring containment in either
direction, then the similarity filter (at least 0.85 and strictly below
1.0) accepting only a unique close match. -/
def findRepresentativeByFuzzyName (searchName : String) (reps : List RepEntry) :
    Option (String × String) :=
  if searchName = "" then none
  else
    let normalizedSearch := trimChars (searchName.data.map Char.toLower)
    match reps.find? (fun rep => rep.normalizedName == normalizedSearch) with
    | some m => some (m.name, m.role)
    | none =>
      match reps.find? (fun rep =>
          includes rep.normalizedName normalizedSearch
            || includes normalizedSearch rep.normalizedName) with
      | some m => some (m.name, m.role)
      | none =>
        match reps.filter (fun rep =>
            decide (85/100 ≤ calculateSimilarity rep.normalizedName normalizedSearch
              ∧ calculateSimilarity rep.normalizedName normalizedSearch < 1)) with
        | [m] => some (m.name, m.role)
        | _ => none

/-- The resolution procedure as the spec states it: exact case-insensitive
match, then substring containment either direction, then edit-distance
similarity at least 0.85 with a unique best match, ambiguity deferring to
no match. Written from the spec wording, to be compared with the source
function. -/
def fuzzySpecStaged (searchName : String) (reps : List RepEntry) :
    Option (String × String) :=
  if searchName = "" then none
  else
    let normalizedSearch := trimChars (searchName.data.map Char.toLower)
    match reps.find? (fun rep => rep.normalizedName == normalizedSearch) with
    | some m => some (m.name, m.role)
    | none =>
      match reps.find? (fun rep =>
          includes rep.normalizedName normalizedSearch
            || includes normalizedSearch rep.normalizedName) with
      | some m => some (m.name, m.role)
      | none =>
        match reps.filter (fun rep =>
            decide (85/100 ≤ calculateSimilarity rep.normalizedName normalizedSearch)) with
        | [m] => some (m.name, m.role)
        | _ => none

theorem eq_of_getEditDistance_eq_zero :
    (s t : List Char) → getEditDistance s t = 0 → s = t
  | [], [], _ => rfl
  | [], _ :: _, h => by simp [getEditDistance] at h
  | _ :: _, [], h => by simp [getEditDistance] at h
  | a :: s, b :: t, h => by
    by_cases hab : a = b
    · simp only [getEditDistance, if_pos hab] at h
      rw [hab, eq_of_getEditDistance_eq_zero s t h]
    · simp [getEditDistance, hab] at h
termination_by s t => s.length + t.length
decreasing_by all_goals simp_wf <;> omega

theorem calculateSimilarity_lt_one {s t : List Char} (h : s ≠ t) :
    calculateSimilarity s t < 1 := by
  unfold calculateSimilarity
  by_cases hlen : t.length < s.length
  · simp only [if_pos hlen]
    have hne : s ≠ t := h
    have hL : s.length ≠ 0 := by
      intro h0
      have : s = [] := List.length_eq_zero.mp h0
      subst this
      omega
    rw [if_neg hL]
    have hed : getEditDistance s t ≠ 0 := fun h0 =>
      hne (eq_of_getEditDistance_eq_zero s t h0)
    have hedq : (0 : ℚ) < getEditDistance s t := by
      have : 0 < getEditDistance s t := Nat.pos_of_ne_zero hed
      exact_mod_cast this
    have hLq : (0 : ℚ) < s.length := by
      have : 0 < s.length := Nat.pos_of_ne_zero hL
      exact_mod_cast this
    rw [div_lt_one hLq]
    linarith
  · simp only [if_neg hlen]
    by_cases hL : t.length = 0
    · exfalso
      have ht : t = [] := List.length_eq_zero.mp hL
      have hs : s = [] := by
        have : s.length = 0 := by omega
        exact List.length_eq_zero.mp this
      exact h (hs.trans ht.symm)
    · rw [if_neg hL]
      have hne : t ≠ s := fun he => h he.symm
      have hed : getEditDistance t s ≠ 0 := fun h0 =>
        hne (eq_of_getEditDistance_eq_zero t s h0)
      have hedq : (0 : ℚ) < getEditDistance t s := by
        have : 0 < getEditDistance t s := Nat.pos_of_ne_zero hed
        exact_mod_cast this
      have hLq : (0 : ℚ) < t.length := by
        have : 0 < t.length := Nat.pos_of_ne_zero hL
        exact_mod_cast this
      rw [div_lt_one hLq]
      linarith

/-- Claim C9: the fuzzy resolver tries, in order, exact case-insensitive
match, then substring containment in either direction, then edit-distance
similarity at least 0.85; an exact match always wins over a similarity
match, and two or more entries at least 0.85-similar (with no earlier rule
matching) yield no match rather than an arbitrary pick. Formally the
source function coincides with the staged procedure written from the
spec: the strict below-1.0 bound in the source filter never excludes a
candidate once the exact stage has failed. -/
theorem C9_fuzzy_resolution_matches_spec (searchName : String)
    (reps : List RepEntry) :
    findRepresentativeByFuzzyName searchName reps
      = fuzzySpecStaged searchName reps := by
  unfold findRepresentativeByFuzzyName fuzzySpecStaged
  by_cases hs : searchName = ""
  · simp [hs]
  · rw [if_neg hs, if_neg hs]
    cases h1 : reps.find? (fun rep =>
        rep.normalizedName == trimChars (searchName.data.map Char.toLower)) with
    | some m => simp only [h1]
    | none =>
      cases h2 : reps.find? (fun rep =>
          includes rep.normalizedName (trimChars (searchName.data.map Char.toLower))
            || includes (trimChars (searchName.data.map Char.toLower)) rep.normalizedName) with
      | some m => simp only [h1, h2]
      | none =>
        have hcong : ∀ rep ∈ reps,
            (decide (85/100 ≤ calculateSimilarity rep.normalizedName
                (trimChars (searchName.data.map Char.toLower))
              ∧ calculateSimilarity rep.normalizedName
                (trimChars (searchName.data.map Char.toLower)) < 1))
            = (decide (85/100 ≤ calculateSimilarity rep.normalizedName
                (trimChars (searchName.data.map Char.toLower)))) := by
          intro rep hrep
          have hne := List.find?_eq_none.mp h1 rep hrep
          simp only [beq_iff_eq] at hne
          have hlt := calculateSimilarity_lt_one hne
          simp [hlt]
        simp only [h1, h2]
        rw [List.filter_congr hcong]

/-!
Lookup-failure semantics (claim C6): expenseExists treats a failed check
as existing, but the reconciler write path uses getExpenseByExpenseId,
whose catch branch returns null, taking the create path.
-/

theorem countKey_pos_of_found {eid : String} {S : Store} {r : ExpenseRecord}
    (h : findByKey eid S.recs = some r) : 1 ≤ countKey eid S := by
  unfold countKey
  have hmem : r ∈ S.recs.filter (fun x => x.fields.expenseId = eid) := by
    rw [List.mem_filter]
    exact ⟨findByKey_mem h, by simp [findByKey_key h]⟩
  exact List.length_pos.mpr (fun hnil => by simp [hnil] at hmem)

/-- A commission whose natural key already exists in the store. -/
def c6Commission : Commission :=
  ⟨"c6", 100, ["s1"], "Dan Pop - Octombrie", some "Dan Pop", []⟩

/-- The store already holds a record under the natural key of the commission. -/
def c6Store : Store :=
  ⟨[⟨0, mkExpenseFields c6Commission "ProiectA" ⟨50, 1, ["s1"]⟩ 100 "Octombrie" 2025⟩], 1⟩

/-- Counterexample to claim C6 as stated: when every lookup fails, the
sales-rep reconciler (which uses getExpenseByExpenseId, not expenseExists)
takes the create path and produces a second record for a key that already
exists: the key count goes from 1 to 2. -/
theorem C6_counterexample :
    countKey (expenseKey "c6" "ProiectA") c6Store = 1 ∧
    (processSalesRepCommission (fun _ => true) c6Commission []
        [⟨"s1", "ProiectA", 50⟩] "Octombrie" 2025 c6Store).2.created = 1 ∧
    countKey (expenseKey "c6" "ProiectA")
        (processSalesRepCommission (fun _ => true) c6Commission []
          [⟨"s1", "ProiectA", 50⟩] "Octombrie" 2025 c6Store).1 = 2 := by
  refine ⟨by decide, ?_, ?_⟩ <;>
  · have hre : reachesWrites c6Commission [] [⟨"s1", "ProiectA", 50⟩] := by
      refine ⟨by decide, by simp, by decide, by decide, by decide⟩
    rw [process_eq_writeGroups _ _ _ _ _ _ _ hre]
    have hg : buildProjectGroups [⟨"s1", "ProiectA", 50⟩]
        = [("ProiectA", ⟨50, 1, ["s1"]⟩)] := by decide
    rw [hg, writeGroups_cons]
    rfl

/-- Claim C6 amended: a failed expenseExists check is treated as "the
record exists" (it returns true from its catch branch), but the reconciler
write path uses getExpenseByExpenseId, whose catch branch returns null, so
on a lookup failure the reconciler takes the create path and appends a new
record even when a record with the same natural key is already present:
the key count strictly increases instead of staying at one. -/
theorem C6_lookup_failure_amended (eid : String) (S : Store) (c : Commission)
    (net W : ℚ) (month : String) (year : Nat) (p : String) (g : SRGroup)
    (r : ExpenseRecord)
    (hfound : findByKey (expenseKey c.id p) S.recs = some r) :
    expenseExists true eid S = true ∧
    getExpenseByExpenseId true eid S = none ∧
    writeGroups (fun _ => true) c net W month year S [(p, g)]
      = (createRec (groupFields c net W month year (p, g)) S, ⟨1, 0, 0, 0⟩) ∧
    countKey (expenseKey c.id p)
        (writeGroups (fun _ => true) c net W month year S [(p, g)]).1
      = countKey (expenseKey c.id p) S + 1 ∧
    2 ≤ countKey (expenseKey c.id p)
        (writeGroups (fun _ => true) c net W month year S [(p, g)]).1 := by
  have hwrite : writeGroups (fun _ => true) c net W month year S [(p, g)]
      = (createRec (groupFields c net W month year (p, g)) S, ⟨1, 0, 0, 0⟩) := rfl
  have hck : countKey (expenseKey c.id p)
      (createRec (groupFields c net W month year (p, g)) S)
      = countKey (expenseKey c.id p) S + 1 := by
    unfold createRec
    rw [countKey_append]
    rw [if_pos (groupFields_expenseId c net W month year (p, g))]
  refine ⟨rfl, rfl, hwrite, by rw [hwrite]; exact hck, ?_⟩
  rw [hwrite]
  show 2 ≤ countKey (expenseKey c.id p)
    (createRec (groupFields c net W month year (p, g)) S)
  rw [hck]
  have := countKey_pos_of_found hfound
  omega

/-- Witness for the amended C6: the concrete duplicated store. -/
theorem C6_amended_witness :
    expenseExists true (expenseKey "c6" "ProiectA") c6Store = true ∧
    getExpenseByExpenseId true (expenseKey "c6" "ProiectA") c6Store = none ∧
    writeGroups (fun _ => true) c6Commission 100 50 "Octombrie" 2025 c6Store
        [("ProiectA", ⟨50, 1, ["s1"]⟩)]
      = (createRec (groupFields c6Commission 100 50 "Octombrie" 2025
          ("ProiectA", ⟨50, 1, ["s1"]⟩)) c6Store, ⟨1, 0, 0, 0⟩) ∧
    countKey (expenseKey c6Commission.id "ProiectA")
        (writeGroups (fun _ => true) c6Commission 100 50 "Octombrie" 2025 c6Store
          [("ProiectA", ⟨50, 1, ["s1"]⟩)]).1
      = countKey (expenseKey c6Commission.id "ProiectA") c6Store + 1 ∧
    2 ≤ countKey (expenseKey c6Commission.id "ProiectA")
        (writeGroups (fun _ => true) c6Commission 100 50 "Octombrie" 2025 c6Store
          [("ProiectA", ⟨50, 1, ["s1"]⟩)]).1 :=
  C6_lookup_failure_amended (expenseKey "c6" "ProiectA") c6Store c6Commission
    100 50 "Octombrie" 2025 "ProiectA" ⟨50, 1, ["s1"]⟩
    ⟨0, mkExpenseFields c6Commission "ProiectA" ⟨50, 1, ["s1"]⟩ 100 "Octombrie" 2025⟩
    (by decide)

/-!
Cross-kind error propagation (claim C7): the orchestrator in src/index.js
awaits all allocation kinds inside one try block.
-/

/-- Mirrors processCommissions (src/index.js lines 237-342): the allocation
kinds are awaited sequentially inside a single try block; the first
rejected kind jumps to the shared catch, which returns success:false and
no per-kind counts, so the remaining kinds are never invoked. The input
list holds the outcome of each kind in call order; the result is how many kinds
actually ran paired with the collected per-kind counts (none when the run
failed). -/
def orchestrate : List (Except String RunCounts) → Nat × Option (List RunCounts)
  | [] => (0, some [])
  | Except.error _ :: _ => (1, none)
  | Except.ok r :: rest =>
    let step := orchestrate rest
    (step.1 + 1, step.2.map (r :: ·))

/-- Mirrors facebookAdsService.js processFacebookAdsForMonthYear
(lines 459-580): missing credentials, an invalid token or a non-RON ad
account currency throw inside the per-month try and land in the catch of
lines 570-580, which returns the zero stats with one error instead of
propagating. happy stands for the stats of the unexceptional path. -/
def processFacebookAdsForMonthYear (credsPresent tokenValid currencyRON : Bool)
    (happy : RunCounts) : RunCounts :=
  if credsPresent && tokenValid && currencyRON then happy else ⟨0, 0, 0, 1⟩

/-- Counterexample to claim C7 as stated: when the first allocation kind
throws, only 1 of the 2 kinds runs and no per-kind counts are returned, so
a fatal failure of one kind does prevent the remaining sibling kinds from
being processed. -/
theorem C7_counterexample :
    orchestrate [Except.error "boom", Except.ok ⟨1, 2, 3, 0⟩] = (1, none) ∧
    (orchestrate [Except.error "boom", Except.ok ⟨1, 2, 3, 0⟩]).1
      ≠ [Except.error "boom", Except.ok (⟨1, 2, 3, 0⟩ : RunCounts)].length := by
  refine ⟨rfl, by decide⟩

theorem orchestrate_append_error (pre : List (Except String RunCounts))
    (e : String) (post : List (Except String RunCounts))
    (hpre : ∀ x ∈ pre, ∃ r, x = Except.ok r) :
    orchestrate (pre ++ Except.error e :: post) = (pre.length + 1, none) := by
  induction pre with
  | nil => rfl
  | cons x rest ih =>
    obtain ⟨r, hr⟩ := hpre x (List.mem_cons_self _ _)
    subst hr
    have h2 := ih (fun y hy => hpre y (List.mem_cons_of_mem _ hy))
    simp only [List.cons_append, orchestrate, List.length_cons]
    simp [h2]

/-- Claim C7 amended: failures are contained within an allocation kind
(a throwing commission inside the sales-rep month loop is counted as an
error and the remaining commissions of that kind still run from the same
store; a Facebook credentials/token/currency failure is caught per month
and reported as an error count), but a failure that escapes an allocation
top-level function of a kind reaches the single orchestrator try/catch,
which aborts all remaining sibling kinds for that run and returns a
failure without any per-kind counts. -/
theorem C7_error_containment_amended
    (pre post : List (Except String RunCounts)) (e : String)
    (lerr : String → Bool) (month : String) (year : Nat)
    (j : Job) (rest : List Job) (S : Store) (happy : RunCounts)
    (hpre : ∀ x ∈ pre, ∃ r, x = Except.ok r)
    (hf : j.fails = true) :
    (orchestrate (pre ++ Except.error e :: post)).1 = pre.length + 1 ∧
    (orchestrate (pre ++ Except.error e :: post)).2 = none ∧
    (runMonth lerr month year (j :: rest) S).2.errors
      = (runMonth lerr month year rest S).2.errors + 1 ∧
    (runMonth lerr month year (j :: rest) S).1
      = (runMonth lerr month year rest S).1 ∧
    processFacebookAdsForMonthYear false true true happy = ⟨0, 0, 0, 1⟩ := by
  have horch := orchestrate_append_error pre e post hpre
  have hrm := runMonth_cons_fails lerr month year j rest S hf
  refine ⟨by rw [horch], by rw [horch], by rw [hrm], by rw [hrm], rfl⟩

/-- Witness for the amended C7 at concrete inputs. -/
theorem C7_amended_witness :
    (orchestrate [Except.ok ⟨1, 0, 0, 0⟩, Except.error "boom",
        Except.ok ⟨2, 0, 0, 0⟩]).1
      = ([Except.ok ⟨1, 0, 0, 0⟩] : List (Except String RunCounts)).length + 1 ∧
    (orchestrate [Except.ok ⟨1, 0, 0, 0⟩, Except.error "boom",
        Except.ok ⟨2, 0, 0, 0⟩]).2 = none ∧
    (runMonth noErr "Octombrie" 2025
        [⟨c1Job.c, [], [], true⟩, c1Job] ⟨[], 0⟩).2.errors
      = (runMonth noErr "Octombrie" 2025 [c1Job] ⟨[], 0⟩).2.errors + 1 ∧
    (runMonth noErr "Octombrie" 2025
        [⟨c1Job.c, [], [], true⟩, c1Job] ⟨[], 0⟩).1
      = (runMonth noErr "Octombrie" 2025 [c1Job] ⟨[], 0⟩).1 ∧
    processFacebookAdsForMonthYear false true true ⟨7, 0, 0, 0⟩ = ⟨0, 0, 0, 1⟩ :=
  C7_error_containment_amended
    [Except.ok ⟨1, 0, 0, 0⟩] [Except.ok ⟨2, 0, 0, 0⟩] "boom"
    noErr "Octombrie" 2025 ⟨c1Job.c, [], [], true⟩ [c1Job] ⟨[], 0⟩ ⟨7, 0, 0, 0⟩
    (by intro x hx; simp at hx; exact ⟨⟨1, 0, 0, 0⟩, hx⟩)
    rfl

/-!
Setter/Caller processing (src/services/setterCallerService.js): the
grouping key includes the role, the expense natural key does not.
-/

/-- One setter/caller bucket (setterCallerService.js lines 356-365). -/
structure SCGroup where
  name : String
  project : String
  role : String
  totalCommission : ℚ
  salesCount : Nat
deriving DecidableEq, Repr

/-- The grouping key of setterCallerService.js line 354:
normalizedName||project||role (role included so that two roles of the
same person stay in distinct buckets). -/
def groupKey (name project role : String) : String :=
  name ++ "||" ++ project ++ "||" ++ role

/-- Lowercasing on the underlying characters, mirroring
String.prototype.toLowerCase. -/
def lowerString (s : String) : String := ⟨s.data.map Char.toLower⟩

/-- The expense natural key of setterCallerService.js line 191:
setter_caller_name_project_month, with no role component. -/
def setterCallerExpenseId (name project month : String) : String :=
  "setter_caller_" ++ name ++ "_" ++ project ++ "_" ++ lowerString month

/-- The expense fields written for one setter/caller group
(setterCallerService.js lines 199-211); the Tip Cheltuiala and Data
columns are not tracked by the model and no associated sales are set. -/
def scFields (g : SCGroup) (month : String) (year : Nat) : ExpenseFields :=
  { description := g.name ++ " - " ++ month
    project := g.project
    category :=
      if g.role = "Caller" then "Caller"
      else if g.role = "Setter" then "Setter"
      else "Setter"
    amount := round2 g.totalCommission
    vatIncluded := "Nu"
    month := month
    year := year
    source := "Automat"
    expenseId := setterCallerExpenseId g.name g.project month
    associatedSales := [] }

/-- Mirrors processSetterCallerGroup (setterCallerService.js lines
130-262): validate project, amount and role, look the natural key up,
update when found, create when not (write failures not modelled). -/
def processSetterCallerGroup (g : SCGroup) (month : String) (year : Nat)
    (S : Store) : Store × RunCounts :=
  if ¬ isValidProject g.project then (S, ⟨0, 0, 1, 0⟩)
  else if ¬ isValidExpenseAmount g.totalCommission then (S, ⟨0, 0, 1, 0⟩)
  else if g.role = "" then (S, ⟨0, 0, 1, 0⟩)
  else
    match findByKey (setterCallerExpenseId g.name g.project month) S.recs with
    | some r => (updateRec r.rid (scFields g month year) S, ⟨0, 1, 0, 0⟩)
    | none => (createRec (scFields g month year) S, ⟨1, 0, 0, 0⟩)

/-- The group loop of processSetterCallerCommissions (setterCallerService.js
lines 74-98), processing buckets sequentially against the store. -/
def processSetterCallerGroups (month : String) (year : Nat) :
    List SCGroup → Store → Store × RunCounts
  | [], S => (S, ⟨0, 0, 0, 0⟩)
  | g :: rest, S =>
    let one := processSetterCallerGroup g month year S
    let step := processSetterCallerGroups month year rest one.1
    (step.1, ⟨step.2.created + one.2.created, step.2.updated + one.2.updated,
      step.2.skipped + one.2.skipped, step.2.errors + one.2.errors⟩)

/-- Counterexample to claim C8 as stated: the same resolved name and
project with roles Setter and Caller form two distinct buckets, yet the
run collapses them to a single derived expense record (one create plus
one update, and exactly one record in the final store). -/
theorem C8_counterexample :
    groupKey "AbagiuMario" "ProiectA" "Setter"
      ≠ groupKey "AbagiuMario" "ProiectA" "Caller" ∧
    (processSetterCallerGroups "Octombrie" 2025
        [⟨"AbagiuMario", "ProiectA", "Setter", 10, 1⟩,
         ⟨"AbagiuMario", "ProiectA", "Caller", 20, 1⟩] ⟨[], 0⟩).1.recs.length = 1 ∧
    (processSetterCallerGroups "Octombrie" 2025
        [⟨"AbagiuMario", "ProiectA", "Setter", 10, 1⟩,
         ⟨"AbagiuMario", "ProiectA", "Caller", 20, 1⟩] ⟨[], 0⟩).2.created = 1 ∧
    (processSetterCallerGroups "Octombrie" 2025
        [⟨"AbagiuMario", "ProiectA", "Setter", 10, 1⟩,
         ⟨"AbagiuMario", "ProiectA", "Caller", 20, 1⟩] ⟨[], 0⟩).2.updated = 1 := by
  refine ⟨by decide, by decide, by decide, by decide⟩

/-- Claim C8 amended: two sale groups with the same resolved payee name
and project but different roles are kept in distinct buckets by the
grouping key (which includes the role), but the expense natural key omits
the role, so both buckets write to the same derived expense record: the
run performs one create and one update and the final store holds exactly
one record under that key (the later bucket overwrites the earlier one). -/
theorem C8_role_buckets_amended
    (n p r1 r2 month : String) (year : Nat)
    (g1 g2 : SCGroup) (S : Store)
    (hg1n : g1.name = n) (hg1p : g1.project = p) (hg1r : g1.role = r1)
    (hg2n : g2.name = n) (hg2p : g2.project = p) (hg2r : g2.role = r2)
    (hr : r1 ≠ r2)
    (hv : isValidProject p = true)
    (ha1 : 0 < g1.totalCommission) (ha2 : 0 < g2.totalCommission)
    (hr1 : r1 ≠ "") (hr2 : r2 ≠ "")
    (hwf : S.WF)
    (hnone : findByKey (setterCallerExpenseId n p month) S.recs = none) :
    groupKey n p r1 ≠ groupKey n p r2 ∧
    setterCallerExpenseId g1.name g1.project month
      = setterCallerExpenseId g2.name g2.project month ∧
    (processSetterCallerGroups month year [g1, g2] S).2.created = 1 ∧
    (processSetterCallerGroups month year [g1, g2] S).2.updated = 1 ∧
    countKey (setterCallerExpenseId n p month)
      (processSetterCallerGroups month year [g1, g2] S).1 = 1 := by
  have heid1 : setterCallerExpenseId g1.name g1.project month
      = setterCallerExpenseId n p month := by rw [hg1n, hg1p]
  have heid2 : setterCallerExpenseId g2.name g2.project month
      = setterCallerExpenseId n p month := by rw [hg2n, hg2p]
  have hkeys : groupKey n p r1 ≠ groupKey n p r2 := by
    unfold groupKey
    intro h
    exact hr (string_append_cancel_left h)
  have hstep1 : processSetterCallerGroup g1 month year S
      = (createRec (scFields g1 month year) S, ⟨1, 0, 0, 0⟩) := by
    unfold processSetterCallerGroup
    rw [if_neg (by simp [hg1p, hv]),
      if_neg (by simp [isValidExpenseAmount, ha1]),
      if_neg (by rw [hg1r]; simp [hr1]),
      heid1, hnone]
  have hfind2 : findByKey (setterCallerExpenseId n p month)
      (createRec (scFields g1 month year) S).recs
      = some ⟨S.next, scFields g1 month year⟩ := by
    rw [findByKey_createRec, hnone]
    show (if (scFields g1 month year).expenseId = setterCallerExpenseId n p month
      then some (⟨S.next, scFields g1 month year⟩ : ExpenseRecord) else none)
      = some ⟨S.next, scFields g1 month year⟩
    rw [if_pos]
    show setterCallerExpenseId g1.name g1.project month = setterCallerExpenseId n p month
    exact heid1
  have hstep2 : processSetterCallerGroup g2 month year
      (createRec (scFields g1 month year) S)
      = (updateRec S.next (scFields g2 month year)
          (createRec (scFields g1 month year) S), ⟨0, 1, 0, 0⟩) := by
    unfold processSetterCallerGroup
    rw [if_neg (by simp [hg2p, hv]),
      if_neg (by simp [isValidExpenseAmount, ha2]),
      if_neg (by rw [hg2r]; simp [hr2]),
      heid2, hfind2]
  have hrun : processSetterCallerGroups month year [g1, g2] S
      = (updateRec S.next (scFields g2 month year)
          (createRec (scFields g1 month year) S), ⟨1, 1, 0, 0⟩) := by
    simp only [processSetterCallerGroups, hstep1, hstep2]
  refine ⟨hkeys, heid1.trans heid2.symm, by rw [hrun], by rw [hrun], ?_⟩
  rw [hrun]
  have hwf1 := wf_createRec (S := S) (scFields g1 month year) hwf
  have hcnt1 : countKey (setterCallerExpenseId n p month)
      (createRec (scFields g1 month year) S) = 1 := by
    unfold createRec
    rw [countKey_append]
    rw [if_pos (show (scFields g1 month year).expenseId
      = setterCallerExpenseId n p month from heid1)]
    have h0 : countKey (setterCallerExpenseId n p month) S = 0 :=
      countKey_eq_zero_of_findByKey_none hnone
    rw [h0]
  have hupd := countKey_update (k := setterCallerExpenseId n p month)
    (l := (createRec (scFields g1 month year) S).recs)
    hwf1.1 hfind2
    (show (scFields g2 month year).expenseId = setterCallerExpenseId n p month from heid2)
  show countKey (setterCallerExpenseId n p month)
    (updateRec (⟨S.next, scFields g1 month year⟩ : ExpenseRecord).rid
      (scFields g2 month year) (createRec (scFields g1 month year) S)) = 1
  unfold countKey updateRec
  simp only []
  rw [hupd]
  exact hcnt1

/-- Witness for the amended C8 at concrete inputs. -/
theorem C8_amended_witness :
    groupKey "AbagiuMario" "ProiectA" "Setter"
      ≠ groupKey "AbagiuMario" "ProiectA" "Caller" ∧
    setterCallerExpenseId (SCGroup.name ⟨"AbagiuMario", "ProiectA", "Setter", 10, 1⟩)
        (SCGroup.project ⟨"AbagiuMario", "ProiectA", "Setter", 10, 1⟩) "Octombrie"
      = setterCallerExpenseId (SCGroup.name ⟨"AbagiuMario", "ProiectA", "Caller", 20, 1⟩)
        (SCGroup.project ⟨"AbagiuMario", "ProiectA", "Caller", 20, 1⟩) "Octombrie" ∧
    (processSetterCallerGroups "Octombrie" 2025
        [⟨"AbagiuMario", "ProiectA", "Setter", 10, 1⟩,
         ⟨"AbagiuMario", "ProiectA", "Caller", 20, 1⟩] ⟨[], 0⟩).2.created = 1 ∧
    (processSetterCallerGroups "Octombrie" 2025
        [⟨"AbagiuMario", "ProiectA", "Setter", 10, 1⟩,
         ⟨"AbagiuMario", "ProiectA", "Caller", 20, 1⟩] ⟨[], 0⟩).2.updated = 1 ∧
    countKey (setterCallerExpenseId "AbagiuMario" "ProiectA" "Octombrie")
      (processSetterCallerGroups "Octombrie" 2025
        [⟨"AbagiuMario", "ProiectA", "Setter", 10, 1⟩,
         ⟨"AbagiuMario", "ProiectA", "Caller", 20, 1⟩] ⟨[], 0⟩).1 = 1 :=
  C8_role_buckets_amended "AbagiuMario" "ProiectA" "Setter" "Caller" "Octombrie" 2025
    ⟨"AbagiuMario", "ProiectA", "Setter", 10, 1⟩
    ⟨"AbagiuMario", "ProiectA", "Caller", 20, 1⟩ ⟨[], 0⟩
    rfl rfl rfl rfl rfl rfl (by decide) (by decide) (by norm_num) (by norm_num)
    (by decide) (by decide) (by constructor <;> simp) rfl
